import Mathlib

/-!
Shallow embedding of the chunked audiobook translation pipeline
(`27-11-2025.py`) and proofs of the specification's claims about it.

Python strings are modelled as `List Char` (one element per Unicode code
point, matching Python's `len`/indexing/slicing semantics).  Pure helpers
(`split_text_preserve_sentences`, `normalize_mojibake`) are translated
directly; the I/O pipeline (`safe_translate_text_chunks`) is translated to
a state-passing function over an oracle environment that supplies the
results of remote translation calls, the operator's yes/no answers and the
random jitter values, and it additionally records a trace of the
observable events (remote calls, sleeps, operator prompts).
-/

namespace AudioBook

/-- Characters for which Python's `str.isspace()` returns `True`; this is
the set stripped by `str.strip()` / `str.lstrip()` with no argument. -/
def pyWS (c : Char) : Bool :=
  c = '\u0020' || c = '\u0009' || c = '\u000a' || c = '\u000b' || c = '\u000c' ||
  c = '\u000d' || c = '\u001c' || c = '\u001d' || c = '\u001e' || c = '\u001f' ||
  c = '\u0085' || c = '\u00a0' || c = '\u1680' ||
  ('\u2000' ≤ c && c ≤ '\u200a') ||
  c = '\u2028' || c = '\u2029' || c = '\u202f' || c = '\u205f' || c = '\u3000'

/-- Python `s.lstrip()`. -/
def lstripP (s : List Char) : List Char := s.dropWhile pyWS

/-- Python right strip, written by structural recursion from the left:
a character is kept iff some non-whitespace character follows it (or it is
itself non-whitespace and last). -/
def rstripP : List Char → List Char
  | [] => []
  | c :: rest =>
    match rstripP rest with
    | [] => if pyWS c then [] else [c]
    | r => c :: r

/-- Python `s.strip()`. -/
def pstrip (s : List Char) : List Char := rstripP (lstripP s)

/-- Number of occurrences of the one-character pattern `c` in `s`
(Python `s.count(c)` for a single character). -/
def countC (c : Char) (s : List Char) : Nat := s.count c

/-- Try to strip `key` from the front of a list (`some` of the remainder
when `key` is a prefix). -/
def stripFrontQ : List Char → List Char → Option (List Char)
  | [], s => some s
  | _ :: _, [] => none
  | k :: ks, c :: cs => if c = k then stripFrontQ ks cs else none

/-- Fuel-driven core of Python `s.replace(key, new)`: scan left to right,
replacing each non-overlapping occurrence of `key`.  The fuel is an upper
bound on the number of characters still to be scanned; `pyReplace` below
supplies enough fuel, so the fuel-exhausted branch is never reached for a
non-empty `key`. -/
def replaceFuel (key new : List Char) : Nat → List Char → List Char
  | 0, s => s
  | _ + 1, [] => []
  | fuel + 1, c :: rest =>
    match stripFrontQ key (c :: rest) with
    | some rem =>
      if key.isEmpty then c :: rest else new ++ replaceFuel key new fuel rem
    | none => c :: replaceFuel key new fuel rest

/-- Python `s.replace(key, new)` for a non-empty `key`. -/
def pyReplace (key new s : List Char) : List Char :=
  replaceFuel key new s.length s

/-- Python `text.rfind(c, 0, limit)` for a one-character pattern: the
highest index `< limit` at which `c` occurs in `text`, or `-1`. -/
def rfindC (c : Char) (s : List Char) (limit : Nat) : Int :=
  let t := s.take limit
  match t.reverse.findIdx? (· = c) with
  | some j => ((t.length - 1 - j : Nat) : Int)
  | none => -1

/-- The boundary markers tried by `split_text_preserve_sentences`. -/
def boundaryChars : List Char := ['.', '!', '?', '\n', ';', ',']

/-- Body of the `while text:` loop of `split_text_preserve_sentences`
(source lines 241-257).  The fuel argument is an upper bound on the number
of remaining iterations; for `limit ≥ 1` every iteration consumes at least
one character, so fuel `= text.length` suffices and the fuel-exhausted
branch is unreachable (proved as part of claim C3). -/
def splitGo (limit : Nat) : Nat → List Char → List (List Char)
  | _, [] => []
  | 0, _ :: _ => []
  | fuel + 1, c :: rest =>
    let s := c :: rest
    if s.length ≤ limit then [pstrip s]
    else
      let cands := boundaryChars.map fun p => rfindC p s limit
      let cut : Int := cands.foldl max (-1)
      let cut : Int := if cut ≤ 0 then (limit : Int) else cut
      let part := pstrip (s.take cut.toNat)
      if part = [] then
        pstrip (s.take limit) :: splitGo limit fuel (lstripP (s.drop limit))
      else
        part :: splitGo limit fuel (lstripP (s.drop cut.toNat))

/-- Embedding of `split_text_preserve_sentences(text, limit)`
(source lines 237-258): split preserving sentence boundaries, falling back
to a hard cut at `limit` when no boundary marker occurs in the window. -/
def split_text_preserve_sentences (text : List Char) (limit : Nat) :
    List (List Char) :=
  splitGo limit (pstrip text).length (pstrip text)

/-- Space or horizontal tab: the character class of the regex `[ \t]+`. -/
def isHT (c : Char) : Bool := c = ' ' || c = '\t'

/-- Embedding of `re.sub(r'[ \t]+', ' ', s)`: collapse every maximal run
of spaces/tabs to a single space.  Written with one character of
lookahead so the recursion is structural. -/
def collapseHT : List Char → List Char
  | [] => []
  | [c] => if isHT c then [' '] else [c]
  | c :: d :: rest =>
    if isHT c then
      if isHT d then collapseHT (d :: rest) else ' ' :: collapseHT (d :: rest)
    else c :: collapseHT (d :: rest)

/-- Output emitted for a finished run of `k` consecutive newlines by the
regex `\n{3,} → \n\n`: runs of three or more become exactly two. -/
def nlOut (k : Nat) : List Char :=
  if 3 ≤ k then ['\n', '\n'] else List.replicate k '\n'

/-- Embedding of `re.sub(r'\n{3,}', '\n\n', s)` as a state machine; `k`
counts the newlines of the run currently being read. -/
def collapseNLGo (k : Nat) : List Char → List Char
  | [] => nlOut k
  | c :: rest =>
    if c = '\n' then collapseNLGo (k + 1) rest
    else nlOut k ++ c :: collapseNLGo 0 rest

/-- Collapse runs of three or more newlines to exactly two. -/
def collapseNL (s : List Char) : List Char := collapseNLGo 0 s

/-- The whitespace-normalisation tail of `normalize_mojibake`
(source lines 288-290): collapse horizontal whitespace, collapse newline
runs, then strip. -/
def wsNorm (s : List Char) : List Char := pstrip (collapseNL (collapseHT s))

/-- Python `s.encode('latin1')`: succeeds iff every code point is below
256, yielding those code points as bytes. -/
def latin1Encode : List Char → Option (List Nat)
  | [] => some []
  | c :: rest =>
    if c.toNat < 256 then (c.toNat :: ·) <$> latin1Encode rest else none

/-- Is `b` a UTF-8 continuation byte? -/
def isCont (b : Nat) : Bool := 0x80 ≤ b && b < 0xC0

/-- Strict UTF-8 decoding of a byte list, as performed by Python
`bytes.decode('utf-8')`: rejects stray/overlong sequences, surrogates and
code points above `0x10FFFF`. -/
def utf8Decode : List Nat → Option (List Char)
  | [] => some []
  | b :: rest =>
    if b < 0x80 then (Char.ofNat b :: ·) <$> utf8Decode rest
    else if b < 0xC2 then none
    else if b < 0xE0 then
      match rest with
      | b2 :: rest2 =>
        if isCont b2 then
          (Char.ofNat ((b - 0xC0) * 64 + (b2 - 0x80)) :: ·) <$> utf8Decode rest2
        else none
      | [] => none
    else if b < 0xF0 then
      match rest with
      | b2 :: b3 :: rest3 =>
        let cp := (b - 0xE0) * 4096 + (b2 - 0x80) * 64 + (b3 - 0x80)
        if isCont b2 && isCont b3 && 0x800 ≤ cp &&
            !(0xD800 ≤ cp && cp ≤ 0xDFFF) then
          (Char.ofNat cp :: ·) <$> utf8Decode rest3
        else none
      | _ => none
    else if b < 0xF5 then
      match rest with
      | b2 :: b3 :: b4 :: rest4 =>
        let cp := (b - 0xF0) * 262144 + (b2 - 0x80) * 4096 +
          (b3 - 0x80) * 64 + (b4 - 0x80)
        if isCont b2 && isCont b3 && isCont b4 && 0x10000 ≤ cp &&
            cp ≤ 0x10FFFF then
          (Char.ofNat cp :: ·) <$> utf8Decode rest4
        else none
      | _ => none
    else none

/-- Python `s.encode('latin1').decode('utf-8')` as a partial function. -/
def latin1Utf8 (s : List Char) : Option (List Char) :=
  latin1Encode s >>= utf8Decode

/-- The heuristic re-decode step of `normalize_mojibake`
(source lines 278-286): if the text contains `Ã` or `â`, try to
re-interpret it as Latin-1 bytes decoded as UTF-8, keeping the result only
when it strictly reduces the number of `â` characters; any encode/decode
failure (the `except` branch) leaves the text unchanged. -/
def redecodeStep (s : List Char) : List Char :=
  if '\u00c3' ∈ s ∨ '\u00e2' ∈ s then
    match latin1Utf8 s with
    | some s2 => if countC '\u00e2' s2 < countC '\u00e2' s then s2 else s
    | none => s
  else s

/-- The fixed substitution table of `normalize_mojibake` (source lines
265-275), applied in insertion order.  The keys and values are written
with explicit code points; the first seven keys are the UTF-8-as-Latin-1
mojibake of curly quotes, dashes and the ellipsis and all start with
`â` (U+00E2) followed by `€` (U+20AC). -/
def applyRepl (s : List Char) : List Char :=
  let s := pyReplace ['\u00e2', '\u20ac', '\u2122'] ['\u2019'] s
  let s := pyReplace ['\u00e2', '\u20ac', '\u0027'] ['\u0027'] s
  let s := pyReplace ['\u00e2', '\u20ac', '\u0153'] ['\u201c'] s
  let s := pyReplace ['\u00e2', '\u20ac', '\ufffd'] ['\u201d'] s
  let s := pyReplace ['\u00e2', '\u20ac', '\u201c'] ['\u2013'] s
  let s := pyReplace ['\u00e2', '\u20ac', '\u201d'] ['\u2014'] s
  let s := pyReplace ['\u00e2', '\u20ac', '\u00a6'] ['\u2026'] s
  let s := pyReplace ['\u2018'] ['\u0027'] s
  let s := pyReplace ['\u2019'] ['\u2019'] s
  s

/-- Embedding of `normalize_mojibake(s)` (source lines 260-290): fix
common mojibake sequences, heuristically re-decode, and normalise
whitespace.  An empty string is returned unchanged. -/
def normalize_mojibake (s : List Char) : List Char :=
  if s = [] then s else wsNorm (redecodeStep (applyRepl s))

/-- Configuration constant `MAX_TRANSLATE_CHARS` (source line 78). -/
def MAX_TRANSLATE_CHARS : Nat := 4500

/-- Configuration constant `TRANSLATE_RETRIES` (source line 79). -/
def TRANSLATE_RETRIES : Nat := 4

/-- Configuration constant `TRANSLATE_BACKOFF` (source line 80); the value
`1.0` is exactly representable, so a rational models the float faithfully. -/
def TRANSLATE_BACKOFF : ℚ := 1

/-- Observable events of the translation pipeline: a remote translator
call `GoogleTranslator(source=src, target=tgt).translate(text)`, a
`time.sleep` of the given duration in seconds, and a `yesno` prompt to the
operator. -/
inductive Ev where
  | call (src tgt text : List Char)
  | sleep (dur : ℚ)
  | ask
deriving DecidableEq, Repr

/-- Oracle environment for the pipeline: `tr i src tgt text` is the result
of the `i`-th remote call overall (`none` models a raised exception),
`ask i` is the operator's answer to the `i`-th `yesno` prompt, and `jit i`
is the `random.uniform(0, 0.5)` jitter drawn after the `i`-th call
fails. -/
structure Env where
  tr : Nat → List Char → List Char → List Char → Option (List Char)
  ask : Nat → Bool
  jit : Nat → ℚ

/-- Embedding of `src = source if source and source != 'unknown' else
'auto'` (source line 337): `None`, the empty string and `"unknown"` map to
`"auto"`; everything else passes through. -/
def srcOf (source : Option (List Char)) : List Char :=
  match source with
  | some s => if s ≠ [] ∧ s ≠ ("unknown").data then s else ("auto").data
  | none => ("auto").data

/-- The inner `while not sub_ok and sub_attempt < 3` retry loop for one
sub-piece of a chunk that failed all main attempts (source lines 360-372):
on success the result is normalised; after each failure the code sleeps
`0.5 * sub_attempt` seconds.  `fuel` is the number of attempts left and
`a` the number of the attempt about to run (`fuel = 3`, `a = 1`
initially); `n` is the remote-call counter. -/
def subAttempts (env : Env) (src tgt sub : List Char) :
    Nat → Nat → Nat → Option (List Char) × List Ev × Nat
  | 0, _, n => (none, [], n)
  | fuel + 1, a, n =>
    match env.tr n src tgt sub with
    | some t => (some (normalize_mojibake t), [Ev.call src tgt sub], n + 1)
    | none =>
      let r := subAttempts env src tgt sub fuel (a + 1) (n + 1)
      (r.1, Ev.call src tgt sub :: Ev.sleep ((1 : ℚ) / 2 * a) :: r.2.1, r.2.2)

/-- The `for j, sub in enumerate(smaller)` loop (source lines 359-375):
translate each sub-piece with `subAttempts`, stopping at the first
sub-piece that exhausts its retries. -/
def subSplitAll (env : Env) (src tgt : List Char) :
    List (List Char) → Nat → Option (List (List Char)) × List Ev × Nat
  | [], n => (some [], [], n)
  | p :: rest, n =>
    let r := subAttempts env src tgt p 3 1 n
    match r.1 with
    | some t =>
      let r2 := subSplitAll env src tgt rest r.2.2
      ((fun ts => t :: ts) <$> r2.1, r.2.1 ++ r2.2.1, r2.2.2)
    | none => (none, r.2.1, r.2.2)

/-- Terminal outcome of processing one chunk: a translated (or
operator-approved original) text, or an abort of the whole pipeline. -/
inductive ChunkRes where
  | success (t : List Char)
  | aborted
deriving DecidableEq, Repr

/-- The operator decision point (source lines 381-387): continue with the
untranslated chunk, or abort the pipeline.  `k` counts previous prompts. -/
def askFallback (env : Env) (chunk : List Char) (evs : List Ev) (n k : Nat) :
    ChunkRes × List Ev × Nat × Nat :=
  if env.ask k then (ChunkRes.success chunk, evs ++ [Ev.ask], n, k + 1)
  else (ChunkRes.aborted, evs ++ [Ev.ask], n, k + 1)

/-- What happens after the last main attempt for a chunk fails (source
lines 353-387): chunks longer than 1000 characters are re-split with
limit `max(1000, MAX_TRANSLATE_CHARS // 3)` and each sub-piece retried;
only if that also fails (or the chunk is short) is the operator asked. -/
def exhaustFallback (env : Env) (src tgt chunk : List Char) (n k : Nat) :
    ChunkRes × List Ev × Nat × Nat :=
  if 1000 < chunk.length then
    let pieces :=
      split_text_preserve_sentences chunk (max 1000 (MAX_TRANSLATE_CHARS / 3))
    let r := subSplitAll env src tgt pieces n
    match r.1 with
    | some ts => (ChunkRes.success (List.intercalate ['\n'] ts), r.2.1, r.2.2, k)
    | none => askFallback env chunk r.2.1 r.2.2 k
  else askFallback env chunk [] n k

/-- The main `while not ok and attempt < TRANSLATE_RETRIES` loop for one
chunk (source lines 331-387).  `fuel` is the number of attempts remaining
after the current one and `a` the 1-based number of the current attempt
(`fuel = TRANSLATE_RETRIES - 1`, `a = 1` initially).  A successful result
is re-normalised; after a failed attempt the code computes the backoff
`TRANSLATE_BACKOFF * 2^(attempt-1) + uniform(0, 0.5)` and sleeps it unless
this was the last attempt, in which case it falls to `exhaustFallback`. -/
def mainAttempts (env : Env) (src tgt chunk : List Char) :
    Nat → Nat → Nat → Nat → ChunkRes × List Ev × Nat × Nat
  | 0, _, n, k =>
    match env.tr n src tgt chunk with
    | some t =>
      (ChunkRes.success (normalize_mojibake t), [Ev.call src tgt chunk],
        n + 1, k)
    | none =>
      let r := exhaustFallback env src tgt chunk (n + 1) k
      (r.1, Ev.call src tgt chunk :: r.2.1, r.2.2)
  | f + 1, a, n, k =>
    match env.tr n src tgt chunk with
    | some t =>
      (ChunkRes.success (normalize_mojibake t), [Ev.call src tgt chunk],
        n + 1, k)
    | none =>
      let r := mainAttempts env src tgt chunk f (a + 1) (n + 1) k
      (r.1, Ev.call src tgt chunk ::
          Ev.sleep (TRANSLATE_BACKOFF * 2 ^ (a - 1) + env.jit n) :: r.2.1,
        r.2.2)

/-- Processing of a single chunk inside the `for idx, chunk in
enumerate(chunks)` loop (source lines 325-387): an empty chunk (blank
paragraph marker) contributes an empty string without any remote call;
other chunks go through the retry loop. -/
def processChunk (env : Env) (src tgt chunk : List Char) (n k : Nat) :
    ChunkRes × List Ev × Nat × Nat :=
  if chunk = [] then (ChunkRes.success [], [], n, k)
  else mainAttempts env src tgt chunk (TRANSLATE_RETRIES - 1) 1 n k

/-- The chunk loop of `safe_translate_text_chunks`: chunks are processed
strictly in order and an abort stops all further processing; the first
component is `some` of the accumulated `translated_parts` unless the
operator aborted. -/
def processChunks (env : Env) (src tgt : List Char) :
    List (List Char) → Nat → Nat →
      Option (List (List Char)) × List Ev × Nat × Nat
  | [], n, k => (some [], [], n, k)
  | c :: rest, n, k =>
    let r := processChunk env src tgt c n k
    match r.1 with
    | ChunkRes.success t =>
      let r2 := processChunks env src tgt rest r.2.2.1 r.2.2.2
      ((fun ts => t :: ts) <$> r2.1, r.2.1 ++ r2.2.1, r2.2.2)
    | ChunkRes.aborted => (none, r.2.1, r.2.2)

/-- Python `text.split('\n\n')`: split on every non-overlapping
occurrence of a double newline, scanning left to right. -/
def splitParagraphs : List Char → List (List Char)
  | [] => [[]]
  | '\n' :: '\n' :: rest => [] :: splitParagraphs rest
  | c :: rest =>
    match splitParagraphs rest with
    | h :: t => (c :: h) :: t
    | [] => [[c]]

/-- Chunk construction of `safe_translate_text_chunks` (source lines
304-320): normalise the whole text, split into paragraphs, keep an empty
chunk for each blank paragraph, keep fitting paragraphs whole, and
sentence-split oversized ones. -/
def buildChunks (text : List Char) : List (List Char) :=
  (splitParagraphs (normalize_mojibake text)).flatMap fun q =>
    let p := pstrip q
    if p = [] then [[]]
    else if p.length ≤ MAX_TRANSLATE_CHARS then [p]
    else split_text_preserve_sentences p MAX_TRANSLATE_CHARS

/-- Embedding of `safe_translate_text_chunks(text, target, source)`
(source lines 293-394): returns the translated text joined with paragraph
separators, or `none` when the operator aborted, together with the trace
of observable events. -/
def safe_translate_text_chunks (env : Env) (text tgt : List Char)
    (source : Option (List Char)) : Option (List Char) × List Ev :=
  let chunks := buildChunks text
  let src := srcOf source
  let r := processChunks env src tgt chunks 0 0
  ((fun parts => List.intercalate ['\n', '\n'] parts) <$> r.1, r.2.1)

/-- The texts passed to the remote translator in a trace. -/
def callInputs : List Ev → List (List Char)
  | [] => []
  | Ev.call _ _ t :: rest => t :: callInputs rest
  | _ :: rest => callInputs rest

/-- The source-language arguments passed to the remote translator in a
trace. -/
def callSrcs : List Ev → List (List Char)
  | [] => []
  | Ev.call s _ _ :: rest => s :: callSrcs rest
  | _ :: rest => callSrcs rest

/-- Decimal digits of `n`, most significant first; the fuel (first
argument) only needs to be positive and at least the number of digits. -/
def natDigitsGo : Nat → Nat → List Char
  | 0, _ => []
  | fuel + 1, n =>
    if n < 10 then [Char.ofNat (48 + n)]
    else natDigitsGo fuel (n / 10) ++ [Char.ofNat (48 + n % 10)]

/-- Decimal representation of `n` (Python `str(n)` for `n : Nat`). -/
def natDigits (n : Nat) : List Char := natDigitsGo (n + 1) n

/-- Python format `f"{i:03d}"` for non-negative `i`: pad the decimal
digits with leading zeros to a minimum width of 3. -/
def fmt03 (i : Nat) : List Char :=
  let d := natDigits i
  List.replicate (3 - d.length) '0' ++ d

/-- The file name `f"{prefix}{i:03d}.mp3"` of the `i`-th TTS part
(source lines 700-703). -/
def partName (i : Nat) : List Char := ("part").data ++ fmt03 i ++ (".mp3").data

/-- The names appended to `generated`, in generation order `1..total`
(source lines 702-717; existing files are appended exactly the same
way). -/
def generatedNames (total : Nat) : List (List Char) :=
  (List.range' 1 total).map partName

/-- Python string `<`: lexicographic comparison by code point, with a
proper prefix comparing smaller. -/
def strLtB : List Char → List Char → Bool
  | [], [] => false
  | [], _ :: _ => true
  | _ :: _, [] => false
  | a :: as, b :: bs => if a < b then true else if b < a then false else strLtB as bs

/-- The non-strict order used to model Python `sorted` on strings. -/
def pyStrLe (a b : List Char) : Prop := strLtB b a = false

instance : DecidableRel pyStrLe := fun a b => by
  unfold pyStrLe; infer_instance

/-- The manifest order `ordered = sorted([Path(x).name for x in
generated])` (source line 721): the generated file names, sorted by
Python string comparison. -/
def manifestNames (total : Nat) : List (List Char) :=
  List.insertionSort pyStrLe (generatedNames total)

/-! ### Helper lemmas about stripping -/

/-- A list whose head (if any) is not Python whitespace. -/
def headNW (s : List Char) : Prop := ∀ c ∈ s.head?, pyWS c = false

/-- Does the head of the list satisfy `p`?  (`false` for the empty
list.) -/
def headP (p : Char → Bool) : List Char → Bool
  | [] => false
  | c :: _ => p c

/-- Normal form for the `[ \t]+ → ' '` substitution: no two adjacent
characters are both in the class `[ \t]`. -/
def noHH : List Char → Bool
  | [] => true
  | a :: rest => (!(isHT a && headP isHT rest)) && noHH rest

/-- Do the first two characters of the list both equal `'\n'`? -/
def head2NN : List Char → Bool
  | a :: b :: _ => a == '\n' && b == '\n'
  | _ => false

/-- Normal form for the `\n{3,} → \n\n` substitution: no three adjacent
newlines. -/
def noNNN : List Char → Bool
  | [] => true
  | a :: rest => (!(a == '\n' && head2NN rest)) && noNNN rest

theorem length_lstripP_le (s : List Char) : (lstripP s).length ≤ s.length :=
  (List.dropWhile_sublist pyWS).length_le

theorem length_rstripP_le (s : List Char) : (rstripP s).length ≤ s.length := by
  induction s with
  | nil => simp [rstripP]
  | cons c rest ih =>
    rw [rstripP]
    cases h : rstripP rest with
    | nil => dsimp; split <;> simp
    | cons d t =>
      rw [h] at ih
      simpa using Nat.succ_le_succ ih

theorem length_pstrip_le (s : List Char) : (pstrip s).length ≤ s.length :=
  (length_rstripP_le _).trans (length_lstripP_le s)

theorem headNW_lstripP (s : List Char) : headNW (lstripP s) := by
  induction s with
  | nil => intro c hc; simp [lstripP] at hc
  | cons a rest ih =>
    intro c hc
    rw [lstripP, List.dropWhile_cons] at hc
    by_cases h : pyWS a
    · rw [if_pos h] at hc; exact ih c hc
    · rw [if_neg h] at hc
      simp only [List.head?_cons, Option.mem_def, Option.some.injEq] at hc
      simpa [← hc] using h

theorem rstripP_cons_shape (c : Char) (t : List Char) :
    rstripP (c :: t) = [] ∨ ∃ r, rstripP (c :: t) = c :: r := by
  rw [rstripP]
  cases rstripP t with
  | nil =>
    dsimp
    split
    · exact Or.inl rfl
    · exact Or.inr ⟨[], rfl⟩
  | cons d r => exact Or.inr ⟨d :: r, rfl⟩

theorem headNW_rstripP (s : List Char) (h : headNW s) : headNW (rstripP s) := by
  cases s with
  | nil => simpa [rstripP] using h
  | cons c t =>
    rcases rstripP_cons_shape c t with h0 | ⟨r, hr⟩
    · intro x hx; rw [h0] at hx; simp at hx
    · intro x hx
      rw [hr] at hx
      simp only [List.head?_cons, Option.mem_def, Option.some.injEq] at hx
      exact h x (by simp [← hx])

theorem headNW_pstrip (s : List Char) : headNW (pstrip s) :=
  headNW_rstripP _ (headNW_lstripP s)

theorem rstripP_ne_nil (c : Char) (t : List Char) (h : pyWS c = false) :
    rstripP (c :: t) ≠ [] := by
  rw [rstripP]
  cases rstripP t with
  | nil => simp [h]
  | cons d r => simp

theorem pstrip_cons_ne_nil (c : Char) (t : List Char) (h : pyWS c = false) :
    pstrip (c :: t) ≠ [] := by
  rw [pstrip, lstripP, List.dropWhile_cons, if_neg (by simp [h])]
  exact rstripP_ne_nil c t h

theorem pstrip_ne_nil_of_headNW (s : List Char) (hs : s ≠ []) (h : headNW s) :
    pstrip s ≠ [] := by
  cases s with
  | nil => exact absurd rfl hs
  | cons c t => exact pstrip_cons_ne_nil c t (h c (by simp))

/-! ### Helper lemmas about the splitter -/

theorem rfindC_ge (c : Char) (s : List Char) (limit : Nat) :
    -1 ≤ rfindC c s limit := by
  rw [rfindC]
  cases (s.take limit).reverse.findIdx? (· = c) with
  | none => simp
  | some j => dsimp; omega

theorem rfindC_lt (c : Char) (s : List Char) (limit : Nat) (h : 1 ≤ limit) :
    rfindC c s limit < (limit : Int) := by
  rw [rfindC]
  cases (s.take limit).reverse.findIdx? (· = c) with
  | none => dsimp; omega
  | some j =>
    dsimp
    have h1 : (s.take limit).length ≤ limit := List.length_take_le limit s
    have h2 : (s.take limit).length - 1 - j ≤ limit - 1 := by omega
    omega

theorem foldl_max_lt (l : List Int) (L : Int) :
    ∀ a : Int, a < L → (∀ x ∈ l, x < L) → l.foldl max a < L := by
  induction l with
  | nil => intro a ha _; simpa using ha
  | cons x xs ih =>
    intro a ha h
    rw [List.foldl_cons]
    exact ih _ (max_lt ha (h x (by simp))) fun y hy => h y (by simp [hy])

theorem splitGo_nil (limit fuel : Nat) : splitGo limit fuel [] = [] := by
  cases fuel <;> rfl

theorem splitGo_cons (limit f : Nat) (c : Char) (rest : List Char) :
    splitGo limit (f + 1) (c :: rest) =
      if (c :: rest).length ≤ limit then [pstrip (c :: rest)]
      else
        let cands := boundaryChars.map fun p => rfindC p (c :: rest) limit
        let cut : Int := cands.foldl max (-1)
        let cut : Int := if cut ≤ 0 then (limit : Int) else cut
        let part := pstrip ((c :: rest).take cut.toNat)
        if part = [] then
          pstrip ((c :: rest).take limit) ::
            splitGo limit f (lstripP ((c :: rest).drop limit))
        else part :: splitGo limit f (lstripP ((c :: rest).drop cut.toNat)) :=
  rfl

/-- The adjusted cut position used by one splitter step is between `1` and
`limit`. -/
theorem splitCut_bounds (s : List Char) (limit : Nat) (h : 1 ≤ limit) :
    1 ≤ (if (boundaryChars.map fun p => rfindC p s limit).foldl max (-1) ≤ 0
          then (limit : Int)
          else (boundaryChars.map fun p => rfindC p s limit).foldl max (-1)) ∧
      (if (boundaryChars.map fun p => rfindC p s limit).foldl max (-1) ≤ 0
          then (limit : Int)
          else (boundaryChars.map fun p => rfindC p s limit).foldl max (-1))
        ≤ (limit : Int) := by
  have hlt : (boundaryChars.map fun p => rfindC p s limit).foldl max (-1) <
      (limit : Int) := by
    refine foldl_max_lt _ _ _ (by omega) ?_
    intro x hx
    simp only [List.mem_map] at hx
    obtain ⟨p, _, rfl⟩ := hx
    exact rfindC_lt p s limit h
  constructor <;> split <;> omega

theorem splitGo_part_length (limit : Nat) (h : 1 ≤ limit) :
    ∀ fuel s, ∀ p ∈ splitGo limit fuel s, p.length ≤ limit := by
  intro fuel
  induction fuel with
  | zero =>
    intro s p hp
    cases s with
    | nil => simp [splitGo_nil] at hp
    | cons c rest => simp [splitGo] at hp
  | succ f ih =>
    intro s p hp
    cases s with
    | nil => simp [splitGo_nil] at hp
    | cons c rest =>
      rw [splitGo_cons] at hp
      by_cases hle : (c :: rest).length ≤ limit
      · rw [if_pos hle] at hp
        simp only [List.mem_singleton] at hp
        subst hp
        exact (length_pstrip_le _).trans hle
      · rw [if_neg hle] at hp
        dsimp only at hp
        obtain ⟨h1, h2⟩ := splitCut_bounds (c :: rest) limit h
        set cut0 : Int :=
          (boundaryChars.map fun q => rfindC q (c :: rest) limit).foldl max (-1)
          with hcut0
        set cut : Int := if cut0 ≤ 0 then (limit : Int) else cut0 with hcut
        have hcutN : cut.toNat ≤ limit := by omega
        by_cases hp0 : pstrip ((c :: rest).take cut.toNat) = []
        · rw [if_pos hp0] at hp
          rcases List.mem_cons.mp hp with rfl | hmem
          · exact (length_pstrip_le _).trans (List.length_take_le limit (c :: rest))
          · exact ih _ p hmem
        · rw [if_neg hp0] at hp
          rcases List.mem_cons.mp hp with rfl | hmem
          · have ht : ((c :: rest).take cut.toNat).length ≤ cut.toNat :=
              List.length_take_le cut.toNat (c :: rest)
            exact (length_pstrip_le _).trans (ht.trans hcutN)
          · exact ih _ p hmem

theorem splitGo_part_ne_nil (limit : Nat) (h : 1 ≤ limit) :
    ∀ fuel s, headNW s → ∀ p ∈ splitGo limit fuel s, p ≠ [] := by
  intro fuel
  induction fuel with
  | zero =>
    intro s hs p hp
    cases s with
    | nil => simp [splitGo_nil] at hp
    | cons c rest => simp [splitGo] at hp
  | succ f ih =>
    intro s hs p hp
    cases s with
    | nil => simp [splitGo_nil] at hp
    | cons c rest =>
      have hc : pyWS c = false := hs c (by simp)
      rw [splitGo_cons] at hp
      by_cases hle : (c :: rest).length ≤ limit
      · rw [if_pos hle] at hp
        simp only [List.mem_singleton] at hp
        subst hp
        exact pstrip_cons_ne_nil c rest hc
      · rw [if_neg hle] at hp
        dsimp only at hp
        set cut0 : Int :=
          (boundaryChars.map fun q => rfindC q (c :: rest) limit).foldl max (-1)
          with hcut0
        set cut : Int := if cut0 ≤ 0 then (limit : Int) else cut0 with hcut
        by_cases hp0 : pstrip ((c :: rest).take cut.toNat) = []
        · rw [if_pos hp0] at hp
          rcases List.mem_cons.mp hp with rfl | hmem
          · have htake : (c :: rest).take limit = c :: rest.take (limit - 1) := by
              cases limit with
              | zero => omega
              | succ m => simp
            rw [htake]
            exact pstrip_cons_ne_nil c _ hc
          · exact ih _ (headNW_lstripP _) p hmem
        · rw [if_neg hp0] at hp
          rcases List.mem_cons.mp hp with rfl | hmem
          · exact hp0
          · exact ih _ (headNW_lstripP _) p hmem

theorem splitGo_count (limit : Nat) (h : 1 ≤ limit) :
    ∀ fuel s, (splitGo limit fuel s).length ≤ s.length := by
  intro fuel
  induction fuel with
  | zero =>
    intro s
    cases s with
    | nil => simp [splitGo_nil]
    | cons c rest => simp [splitGo]
  | succ f ih =>
    intro s
    cases s with
    | nil => simp [splitGo_nil]
    | cons c rest =>
      rw [splitGo_cons]
      by_cases hle : (c :: rest).length ≤ limit
      · rw [if_pos hle]
        simp
      · rw [if_neg hle]
        dsimp only
        obtain ⟨h1, h2⟩ := splitCut_bounds (c :: rest) limit h
        set cut0 : Int :=
          (boundaryChars.map fun q => rfindC q (c :: rest) limit).foldl max (-1)
          with hcut0
        set cut : Int := if cut0 ≤ 0 then (limit : Int) else cut0 with hcut
        have hdrop : ∀ m : Nat, 1 ≤ m →
            (lstripP ((c :: rest).drop m)).length + 1 ≤ (c :: rest).length := by
          intro m hm
          have := length_lstripP_le ((c :: rest).drop m)
          have := List.length_drop m (c :: rest)
          simp only [List.length_cons] at *
          omega
        by_cases hp0 : pstrip ((c :: rest).take cut.toNat) = []
        · rw [if_pos hp0]
          have := ih (lstripP ((c :: rest).drop limit))
          have := hdrop limit h
          simp only [List.length_cons] at *
          omega
        · rw [if_neg hp0]
          have := ih (lstripP ((c :: rest).drop cut.toNat))
          have := hdrop cut.toNat (by omega)
          simp only [List.length_cons] at *
          omega

theorem splitGo_fuel_irrel (limit : Nat) (h : 1 ≤ limit) :
    ∀ f1 s f2, s.length ≤ f1 → s.length ≤ f2 →
      splitGo limit f1 s = splitGo limit f2 s := by
  intro f1
  induction f1 with
  | zero =>
    intro s f2 h1 _
    cases s with
    | nil => simp [splitGo_nil]
    | cons c rest => simp at h1
  | succ f ih =>
    intro s f2 h1 h2
    cases s with
    | nil => simp [splitGo_nil]
    | cons c rest =>
      cases f2 with
      | zero => simp at h2
      | succ g =>
        rw [splitGo_cons, splitGo_cons]
        by_cases hle : (c :: rest).length ≤ limit
        · rw [if_pos hle, if_pos hle]
        · rw [if_neg hle, if_neg hle]
          dsimp only
          obtain ⟨hb1, hb2⟩ := splitCut_bounds (c :: rest) limit h
          set cut0 : Int :=
            (boundaryChars.map fun q => rfindC q (c :: rest) limit).foldl max (-1)
            with hcut0
          set cut : Int := if cut0 ≤ 0 then (limit : Int) else cut0 with hcut
          have hdrop : ∀ m : Nat, 1 ≤ m →
              (lstripP ((c :: rest).drop m)).length + 1 ≤ (c :: rest).length := by
            intro m hm
            have := length_lstripP_le ((c :: rest).drop m)
            have := List.length_drop m (c :: rest)
            simp only [List.length_cons] at *
            omega
          by_cases hp0 : pstrip ((c :: rest).take cut.toNat) = []
          · simp only [if_pos hp0]
            have hd := hdrop limit h
            rw [ih (lstripP ((c :: rest).drop limit)) g (by
              simp only [List.length_cons] at *; omega) (by
              simp only [List.length_cons] at *; omega)]
          · simp only [if_neg hp0]
            have hd := hdrop cut.toNat (by omega)
            rw [ih (lstripP ((c :: rest).drop cut.toNat)) g (by
              simp only [List.length_cons] at *; omega) (by
              simp only [List.length_cons] at *; omega)]

/-! ### Claims C1, C2, C3 -/

/-- C1: the spec claims the segmenter maps `"Hello world. This is a
test."` with limit 15 to `["Hello world.", "This is a test."]`, keeping
the sentence-ending punctuation in each segment.  The code cuts at
`text[:cut]`, where `cut` is the index of the boundary marker itself, so
the marker is excluded from the emitted piece; on this input it actually
returns `["Hello world", ". This is a tes", "t."]`, which also fails to
preserve the second sentence.  This theorem evaluates the embedded code at
the failing input. -/
theorem C1_scenarioA_code_result :
    split_text_preserve_sentences ("Hello world. This is a test.").data 15 =
      [("Hello world").data, (". This is a tes").data, ("t.").data] ∧
    split_text_preserve_sentences ("Hello world. This is a test.").data 15 ≠
      [("Hello world.").data, ("This is a test.").data] := by
  constructor
  · decide
  · decide

/-- C2: for every input string and every limit greater than zero, every
segment emitted by `split_text_preserve_sentences` has length at most the
limit (the hard-cut fallback cuts at exactly the limit and then strips, so
even those segments respect the bound). -/
theorem C2_segment_length_bound (text : List Char) (limit : Nat)
    (h : 1 ≤ limit) :
    ∀ p ∈ split_text_preserve_sentences text limit, p.length ≤ limit :=
  fun p hp => splitGo_part_length limit h _ _ p hp

theorem C2_segment_length_bound_witness :
    1 ≤ 15 ∧
      ∀ p ∈ split_text_preserve_sentences
        ("Hello world. This is a test.").data 15, p.length ≤ 15 :=
  ⟨by decide, C2_segment_length_bound _ 15 (by decide)⟩

/-- C3: for every input string and limit greater than zero the segmenter
terminates and makes strict progress: no emitted segment is empty, the
number of segments is at most the input length, and the fuel-driven loop
is insensitive to any fuel of at least the input length (each iteration
consumes at least one character, so `text.length` iterations always
suffice — the termination argument of the `while` loop). -/
theorem C3_forward_progress (text : List Char) (limit : Nat)
    (h : 1 ≤ limit) :
    (∀ p ∈ split_text_preserve_sentences text limit, p ≠ []) ∧
    (split_text_preserve_sentences text limit).length ≤ text.length ∧
    ∀ fuel, text.length ≤ fuel →
      splitGo limit fuel (pstrip text) =
        split_text_preserve_sentences text limit := by
  refine ⟨fun p hp =>
    splitGo_part_ne_nil limit h _ _ (headNW_pstrip text) p hp,
    (splitGo_count limit h _ (pstrip text)).trans (length_pstrip_le text),
    fun fuel hf => ?_⟩
  exact splitGo_fuel_irrel limit h fuel (pstrip text) (pstrip text).length
    ((length_pstrip_le text).trans hf) le_rfl

theorem C3_forward_progress_witness :
    1 ≤ 3 ∧
      ((∀ p ∈ split_text_preserve_sentences ("ab. cd, ee").data 3, p ≠ []) ∧
      (split_text_preserve_sentences ("ab. cd, ee").data 3).length ≤
        ("ab. cd, ee").data.length ∧
      ∀ fuel, ("ab. cd, ee").data.length ≤ fuel →
        splitGo 3 fuel (pstrip ("ab. cd, ee").data) =
          split_text_preserve_sentences ("ab. cd, ee").data 3) :=
  ⟨by decide, C3_forward_progress ("ab. cd, ee").data 3 (by decide)⟩

/-! ### Helper lemmas about Python string comparison and part names -/

theorem strLtB_cons_lt_head {a b : Char} (u v : List Char) (h : a < b) :
    strLtB (a :: u) (b :: v) = true := by
  simp [strLtB, h]

theorem strLtB_cons_same (a : Char) (u v : List Char) :
    strLtB (a :: u) (a :: v) = strLtB u v := by
  simp [strLtB, lt_irrefl]

theorem strLtB_asymm : ∀ u v : List Char,
    strLtB u v = true → strLtB v u = false := by
  intro u
  induction u with
  | nil =>
    intro v h
    cases v with
    | nil => simp [strLtB] at h
    | cons b bs => simp [strLtB]
  | cons a as ih =>
    intro v h
    cases v with
    | nil => simp [strLtB] at h
    | cons b bs =>
      rw [strLtB] at h ⊢
      by_cases hab : a < b
      · rw [if_neg (lt_asymm hab), if_pos hab]
      · rw [if_neg hab] at h
        by_cases hba : b < a
        · rw [if_pos hba] at h; exact absurd h (by simp)
        · rw [if_neg hba] at h
          rw [if_neg hba, if_neg hab]
          exact ih bs h

theorem strLtB_append_left : ∀ p u v : List Char,
    strLtB (p ++ u) (p ++ v) = strLtB u v := by
  intro p
  induction p with
  | nil => intro u v; simp
  | cons a as ih => intro u v; simp [List.cons_append, strLtB_cons_same, ih]

theorem digitChar_lt : ∀ d1 < 10, ∀ d2 < 10, d1 < d2 →
    Char.ofNat (48 + d1) < Char.ofNat (48 + d2) := by decide

set_option maxRecDepth 10000 in
theorem fmt03_eq_digits : ∀ i : Nat, i ≤ 999 →
    fmt03 i = [Char.ofNat (48 + i / 100), Char.ofNat (48 + i / 10 % 10),
      Char.ofNat (48 + i % 10)] := by decide

theorem fmt03_strLt (r : List Char) (i j : Nat) (hij : i < j) (hj : j ≤ 999) :
    strLtB (fmt03 i ++ r) (fmt03 j ++ r) = true := by
  rw [fmt03_eq_digits i (by omega), fmt03_eq_digits j hj]
  have h12 : i / 100 ≤ j / 100 := Nat.div_le_div_right (le_of_lt hij)
  rcases eq_or_lt_of_le h12 with h1 | h1
  · rw [h1]
    simp only [List.cons_append, List.nil_append, strLtB_cons_same]
    have h22 : i / 10 % 10 ≤ j / 10 % 10 := by omega
    rcases eq_or_lt_of_le h22 with h2 | h2
    · rw [h2]
      rw [strLtB_cons_same]
      have h3 : i % 10 < j % 10 := by omega
      exact strLtB_cons_lt_head _ _ (digitChar_lt _ (by omega) _ (by omega) h3)
    · exact strLtB_cons_lt_head _ _ (digitChar_lt _ (by omega) _ (by omega) h2)
  · simp only [List.cons_append, List.nil_append]
    exact strLtB_cons_lt_head _ _ (digitChar_lt _ (by omega) _ (by omega) h1)

theorem partName_strLt (i j : Nat) (hij : i < j) (hj : j ≤ 999) :
    strLtB (partName i) (partName j) = true := by
  rw [partName, partName, List.append_assoc, List.append_assoc,
    strLtB_append_left]
  exact fmt03_strLt _ i j hij hj

theorem generatedNames_pairwise (total : Nat) (h : total ≤ 999) :
    List.Pairwise (fun a b => strLtB a b = true) (generatedNames total) := by
  rw [generatedNames, List.pairwise_map]
  refine (List.pairwise_lt_range' 1 total).imp_of_mem ?_
  intro i j hi hj hij
  have hjb := (List.mem_range'_1.mp hj).2
  exact partName_strLt i j hij (by omega)

theorem manifestNames_eq_generated (total : Nat) (h : total ≤ 999) :
    manifestNames total = generatedNames total := by
  rw [manifestNames]
  refine List.Sorted.insertionSort_eq ?_
  exact (generatedNames_pairwise total h).imp fun hab => strLtB_asymm _ _ hab

/-! ### Claim C10 -/

/-- C10: TTS part files are named `part001.mp3`, `part002.mp3`, ... with a
3-digit zero-padded index, and the manifest is the lexicographic sort of
the generated names (`sorted` on Python strings), so for every run of at
most 999 parts the manifest lists the artifacts in strictly increasing
sequence-index order; past 999 the padding stops helping
(`"part1000.mp3" < "part999.mp3"` lexicographically). -/
theorem C10_manifest_order (total : Nat) (h : total ≤ 999) :
    manifestNames total = generatedNames total ∧
    List.Pairwise (fun a b => strLtB a b = true) (generatedNames total) ∧
    partName 1 = ("part001.mp3").data ∧
    strLtB (partName 1000) (partName 999) = true :=
  ⟨manifestNames_eq_generated total h, generatedNames_pairwise total h,
    by decide, by decide⟩

theorem C10_manifest_order_witness :
    12 ≤ 999 ∧
      (manifestNames 12 = generatedNames 12 ∧
      List.Pairwise (fun a b => strLtB a b = true) (generatedNames 12) ∧
      partName 1 = ("part001.mp3").data ∧
      strLtB (partName 1000) (partName 999) = true) :=
  ⟨by decide, C10_manifest_order 12 (by decide)⟩

/-! ### Step equations and trace lemmas for the pipeline -/

theorem subAttempts_zero (env : Env) (src tgt sub : List Char) (a n : Nat) :
    subAttempts env src tgt sub 0 a n = (none, [], n) := rfl

theorem subAttempts_some (env : Env) (src tgt sub t : List Char)
    (f a n : Nat) (h : env.tr n src tgt sub = some t) :
    subAttempts env src tgt sub (f + 1) a n =
      (some (normalize_mojibake t), [Ev.call src tgt sub], n + 1) := by
  rw [subAttempts, h]

theorem subAttempts_none (env : Env) (src tgt sub : List Char)
    (f a n : Nat) (h : env.tr n src tgt sub = none) :
    subAttempts env src tgt sub (f + 1) a n =
      ((subAttempts env src tgt sub f (a + 1) (n + 1)).1,
        Ev.call src tgt sub :: Ev.sleep ((1 : ℚ) / 2 * a) ::
          (subAttempts env src tgt sub f (a + 1) (n + 1)).2.1,
        (subAttempts env src tgt sub f (a + 1) (n + 1)).2.2) := by
  rw [subAttempts, h]

theorem subAttempts_trace_pred (env : Env) (src tgt sub : List Char)
    (P : Ev → Prop) (hc : P (Ev.call src tgt sub))
    (hs : ∀ d, P (Ev.sleep d)) :
    ∀ fuel a n, ∀ e ∈ (subAttempts env src tgt sub fuel a n).2.1, P e := by
  intro fuel
  induction fuel with
  | zero => intro a n e he; rw [subAttempts_zero] at he; simp at he
  | succ f ih =>
    intro a n e he
    cases htr : env.tr n src tgt sub with
    | some t =>
      rw [subAttempts_some env src tgt sub t f a n htr] at he
      simp only [List.mem_singleton] at he
      subst he; exact hc
    | none =>
      rw [subAttempts_none env src tgt sub f a n htr] at he
      rcases List.mem_cons.mp he with rfl | he2
      · exact hc
      rcases List.mem_cons.mp he2 with rfl | he3
      · exact hs _
      · exact ih _ _ e he3

theorem subSplitAll_trace_pred (env : Env) (src tgt : List Char)
    (P : Ev → Prop) (hs : ∀ d, P (Ev.sleep d)) :
    ∀ pieces n, (∀ p ∈ pieces, P (Ev.call src tgt p)) →
      ∀ e ∈ (subSplitAll env src tgt pieces n).2.1, P e := by
  intro pieces
  induction pieces with
  | nil => intro n _ e he; rw [subSplitAll] at he; simp at he
  | cons p rest ih =>
    intro n hp e he
    rw [subSplitAll] at he
    dsimp only at he
    have hsub := subAttempts_trace_pred env src tgt p P
      (hp p (by simp)) hs 3 1 n
    cases h1 : (subAttempts env src tgt p 3 1 n).1 with
    | some t =>
      rw [h1] at he
      dsimp only at he
      rcases List.mem_append.mp he with h | h
      · exact hsub e h
      · exact ih _ (fun q hq => hp q (by simp [hq])) e h
    | none =>
      rw [h1] at he
      exact hsub e he

theorem mainAttempts_some (env : Env) (src tgt chunk t : List Char)
    (fuel a n k : Nat) (h : env.tr n src tgt chunk = some t) :
    mainAttempts env src tgt chunk fuel a n k =
      (ChunkRes.success (normalize_mojibake t), [Ev.call src tgt chunk],
        n + 1, k) := by
  cases fuel with
  | zero => rw [mainAttempts, h]
  | succ f => rw [mainAttempts, h]

theorem mainAttempts_zero_none (env : Env) (src tgt chunk : List Char)
    (a n k : Nat) (h : env.tr n src tgt chunk = none) :
    mainAttempts env src tgt chunk 0 a n k =
      ((exhaustFallback env src tgt chunk (n + 1) k).1,
        Ev.call src tgt chunk ::
          (exhaustFallback env src tgt chunk (n + 1) k).2.1,
        (exhaustFallback env src tgt chunk (n + 1) k).2.2) := by
  rw [mainAttempts, h]

theorem mainAttempts_succ_none (env : Env) (src tgt chunk : List Char)
    (f a n k : Nat) (h : env.tr n src tgt chunk = none) :
    mainAttempts env src tgt chunk (f + 1) a n k =
      ((mainAttempts env src tgt chunk f (a + 1) (n + 1) k).1,
        Ev.call src tgt chunk ::
          Ev.sleep (TRANSLATE_BACKOFF * 2 ^ (a - 1) + env.jit n) ::
          (mainAttempts env src tgt chunk f (a + 1) (n + 1) k).2.1,
        (mainAttempts env src tgt chunk f (a + 1) (n + 1) k).2.2) := by
  rw [mainAttempts, h]

theorem askFallback_trace_pred (env : Env) (chunk : List Char)
    (evs : List Ev) (n k : Nat) (P : Ev → Prop) (ha : P Ev.ask)
    (hevs : ∀ e ∈ evs, P e) :
    ∀ e ∈ (askFallback env chunk evs n k).2.1, P e := by
  intro e he
  rw [askFallback] at he
  split at he <;>
  · dsimp only at he
    rcases List.mem_append.mp he with h | h
    · exact hevs e h
    · simp only [List.mem_singleton] at h; subst h; exact ha

theorem exhaustFallback_trace_pred (env : Env) (src tgt chunk : List Char)
    (n k : Nat) (P : Ev → Prop) (ha : P Ev.ask) (hs : ∀ d, P (Ev.sleep d))
    (hsub : ∀ p ∈ split_text_preserve_sentences chunk
      (max 1000 (MAX_TRANSLATE_CHARS / 3)), P (Ev.call src tgt p)) :
    ∀ e ∈ (exhaustFallback env src tgt chunk n k).2.1, P e := by
  intro e he
  rw [exhaustFallback] at he
  split at he
  · dsimp only at he
    have hall := subSplitAll_trace_pred env src tgt P hs
      (split_text_preserve_sentences chunk
        (max 1000 (MAX_TRANSLATE_CHARS / 3))) n hsub
    cases h1 : (subSplitAll env src tgt
        (split_text_preserve_sentences chunk
          (max 1000 (MAX_TRANSLATE_CHARS / 3))) n).1 with
    | some ts =>
      rw [h1] at he
      exact hall e he
    | none =>
      rw [h1] at he
      exact askFallback_trace_pred env chunk _ _ k P ha hall e he
  · exact askFallback_trace_pred env chunk [] n k P ha (by simp) e he

theorem mainAttempts_trace_pred (env : Env) (src tgt chunk : List Char)
    (P : Ev → Prop) (hc : P (Ev.call src tgt chunk)) (ha : P Ev.ask)
    (hs : ∀ d, P (Ev.sleep d))
    (hsub : ∀ p ∈ split_text_preserve_sentences chunk
      (max 1000 (MAX_TRANSLATE_CHARS / 3)), P (Ev.call src tgt p)) :
    ∀ fuel a n k, ∀ e ∈ (mainAttempts env src tgt chunk fuel a n k).2.1,
      P e := by
  intro fuel
  induction fuel with
  | zero =>
    intro a n k e he
    cases htr : env.tr n src tgt chunk with
    | some t =>
      rw [mainAttempts_some env src tgt chunk t 0 a n k htr] at he
      simp only [List.mem_singleton] at he
      subst he; exact hc
    | none =>
      rw [mainAttempts_zero_none env src tgt chunk a n k htr] at he
      rcases List.mem_cons.mp he with rfl | he2
      · exact hc
      · exact exhaustFallback_trace_pred env src tgt chunk _ _ P ha hs hsub
          e he2
  | succ f ih =>
    intro a n k e he
    cases htr : env.tr n src tgt chunk with
    | some t =>
      rw [mainAttempts_some env src tgt chunk t (f + 1) a n k htr] at he
      simp only [List.mem_singleton] at he
      subst he; exact hc
    | none =>
      rw [mainAttempts_succ_none env src tgt chunk f a n k htr] at he
      rcases List.mem_cons.mp he with rfl | he2
      · exact hc
      rcases List.mem_cons.mp he2 with rfl | he3
      · exact hs _
      · exact ih _ _ _ e he3

theorem processChunk_empty (env : Env) (src tgt : List Char) (n k : Nat) :
    processChunk env src tgt [] n k = (ChunkRes.success [], [], n, k) := rfl

theorem processChunk_trace_pred (env : Env) (src tgt chunk : List Char)
    (P : Ev → Prop) (hc : chunk ≠ [] → P (Ev.call src tgt chunk))
    (ha : P Ev.ask) (hs : ∀ d, P (Ev.sleep d))
    (hsub : ∀ p ∈ split_text_preserve_sentences chunk
      (max 1000 (MAX_TRANSLATE_CHARS / 3)), P (Ev.call src tgt p)) :
    ∀ n k, ∀ e ∈ (processChunk env src tgt chunk n k).2.1, P e := by
  intro n k e he
  rw [processChunk] at he
  by_cases hch : chunk = []
  · rw [if_pos hch] at he; simp at he
  · rw [if_neg hch] at he
    exact mainAttempts_trace_pred env src tgt chunk P (hc hch) ha hs hsub
      _ _ _ _ e he

theorem processChunks_trace_pred (env : Env) (src tgt : List Char)
    (P : Ev → Prop) (ha : P Ev.ask) (hs : ∀ d, P (Ev.sleep d)) :
    ∀ chunks n k,
      (∀ c ∈ chunks, c ≠ [] → P (Ev.call src tgt c)) →
      (∀ c ∈ chunks, ∀ p ∈ split_text_preserve_sentences c
        (max 1000 (MAX_TRANSLATE_CHARS / 3)), P (Ev.call src tgt p)) →
      ∀ e ∈ (processChunks env src tgt chunks n k).2.1, P e := by
  intro chunks
  induction chunks with
  | nil => intro n k _ _ e he; rw [processChunks] at he; simp at he
  | cons c rest ih =>
    intro n k hcall hsub e he
    rw [processChunks] at he
    dsimp only at he
    have hone := processChunk_trace_pred env src tgt c P
      (hcall c (by simp)) ha hs (hsub c (by simp)) n k
    cases h1 : (processChunk env src tgt c n k).1 with
    | success t =>
      rw [h1] at he
      dsimp only at he
      rcases List.mem_append.mp he with h | h
      · exact hone e h
      · exact ih _ _ (fun q hq => hcall q (by simp [hq]))
          (fun q hq => hsub q (by simp [hq])) e h
    | aborted =>
      rw [h1] at he
      exact hone e he

theorem callInputs_call (s g t : List Char) (rest : List Ev) :
    callInputs (Ev.call s g t :: rest) = t :: callInputs rest := rfl

theorem callInputs_sleep (d : ℚ) (rest : List Ev) :
    callInputs (Ev.sleep d :: rest) = callInputs rest := rfl

theorem callInputs_ask (rest : List Ev) :
    callInputs (Ev.ask :: rest) = callInputs rest := rfl

theorem callSrcs_call (s g t : List Char) (rest : List Ev) :
    callSrcs (Ev.call s g t :: rest) = s :: callSrcs rest := rfl

theorem callSrcs_sleep (d : ℚ) (rest : List Ev) :
    callSrcs (Ev.sleep d :: rest) = callSrcs rest := rfl

theorem callSrcs_ask (rest : List Ev) :
    callSrcs (Ev.ask :: rest) = callSrcs rest := rfl

theorem mem_callInputs : ∀ (evs : List Ev) (t : List Char),
    t ∈ callInputs evs ↔ ∃ s g, Ev.call s g t ∈ evs := by
  intro evs t
  induction evs with
  | nil => simp [callInputs]
  | cons e rest ih =>
    cases e with
    | call s g u =>
      rw [callInputs_call]
      simp only [List.mem_cons, ih]
      constructor
      · rintro (rfl | ⟨s1, g1, hm⟩)
        · exact ⟨s, g, Or.inl rfl⟩
        · exact ⟨s1, g1, Or.inr hm⟩
      · rintro ⟨s1, g1, (he | hm)⟩
        · cases he; exact Or.inl rfl
        · exact Or.inr ⟨s1, g1, hm⟩
    | sleep d => rw [callInputs_sleep, ih]; simp
    | ask => rw [callInputs_ask, ih]; simp

theorem mem_callSrcs : ∀ (evs : List Ev) (s : List Char),
    s ∈ callSrcs evs ↔ ∃ g t, Ev.call s g t ∈ evs := by
  intro evs s
  induction evs with
  | nil => simp [callSrcs]
  | cons e rest ih =>
    cases e with
    | call s1 g u =>
      rw [callSrcs_call]
      simp only [List.mem_cons, ih]
      constructor
      · rintro (rfl | ⟨g1, t1, hm⟩)
        · exact ⟨g, u, Or.inl rfl⟩
        · exact ⟨g1, t1, Or.inr hm⟩
      · rintro ⟨g1, t1, (he | hm)⟩
        · cases he; exact Or.inl rfl
        · exact Or.inr ⟨g1, t1, hm⟩
    | sleep d => rw [callSrcs_sleep, ih]; simp
    | ask => rw [callSrcs_ask, ih]; simp

/-- Every remote call made while processing a chunk list carries a
non-empty input text: empty chunks are short-circuited before the retry
loop, and sub-split pieces are non-empty by the splitter's forward
progress. -/
theorem processChunks_calls_ne_nil (env : Env) (src tgt : List Char)
    (chunks : List (List Char)) (n k : Nat) :
    ∀ e ∈ (processChunks env src tgt chunks n k).2.1,
      ∀ s g t, e = Ev.call s g t → t ≠ [] := by
  refine processChunks_trace_pred env src tgt
    (fun e => ∀ s g t, e = Ev.call s g t → t ≠ []) (by intro s g t h; cases h)
    (by intro d s g t h; cases h) chunks n k ?_ ?_
  · intro c _ hc s g t he
    cases he
    exact hc
  · intro c _ p hp s g t he
    cases he
    exact splitGo_part_ne_nil _ (by rw [MAX_TRANSLATE_CHARS]; omega) _ _
      (headNW_pstrip c) p hp

/-- Every remote call made while processing a chunk list carries the
source-language argument `src` it was given. -/
theorem processChunks_calls_src (env : Env) (src tgt : List Char)
    (chunks : List (List Char)) (n k : Nat) :
    ∀ e ∈ (processChunks env src tgt chunks n k).2.1,
      ∀ s g t, e = Ev.call s g t → s = src := by
  refine processChunks_trace_pred env src tgt
    (fun e => ∀ s g t, e = Ev.call s g t → s = src) (by intro s g t h; cases h)
    (by intro d s g t h; cases h) chunks n k ?_ ?_
  · intro c _ _ s g t he
    cases he
    rfl
  · intro c _ p _ s g t he
    cases he
    rfl

/-- When chunk processing completes without an abort, the result list has
exactly one entry per chunk, and every empty chunk's entry is the empty
string. -/
theorem processChunks_parts (env : Env) (src tgt : List Char) :
    ∀ (chunks : List (List Char)) (n k : Nat) (parts : List (List Char)),
      (processChunks env src tgt chunks n k).1 = some parts →
      parts.length = chunks.length ∧
      ∀ i (h1 : i < chunks.length) (h2 : i < parts.length),
        chunks.get ⟨i, h1⟩ = [] → parts.get ⟨i, h2⟩ = [] := by
  intro chunks
  induction chunks with
  | nil =>
    intro n k parts h
    rw [processChunks] at h
    simp only [Option.some.injEq] at h
    subst h
    exact ⟨rfl, fun i h1 => by simp at h1⟩
  | cons c rest ih =>
    intro n k parts h
    rw [processChunks] at h
    dsimp only at h
    cases h1 : (processChunk env src tgt c n k).1 with
    | success t =>
      rw [h1] at h
      dsimp only at h
      cases hres : (processChunks env src tgt rest
          (processChunk env src tgt c n k).2.2.1
          (processChunk env src tgt c n k).2.2.2).1 with
      | none => rw [hres] at h; simp at h
      | some ts =>
      rw [hres] at h
      simp only [Option.map_eq_map, Option.map_some, Option.map_some',
        Option.some.injEq] at h
      subst h
      obtain ⟨hlen, hidx⟩ := ih _ _ ts hres
      refine ⟨by simp [hlen], ?_⟩
      intro i hi1 hi2 hc
      cases i with
      | zero =>
        have hce : c = [] := by simpa using hc
        rw [processChunk, if_pos hce] at h1
        simp only [Prod.fst] at h1
        have := ChunkRes.success.inj h1
        simp [← this]
      | succ j =>
        simp only [List.get_cons_succ] at hc ⊢
        exact hidx j (by simpa using hi1) (by simpa using hi2) hc
    | aborted =>
      rw [h1] at h
      simp at h

/-! ### Claims C6 and C9 -/

/-- C6: in the translation pipeline, a blank-paragraph marker chunk is
never passed to the remote translator (every remote call's input in the
trace is non-empty), and on a successful run every chunk — in particular
every empty chunk — contributes exactly one entry to the ordered result,
with empty chunks mapped to the empty string, so blank lines
round-trip through translation. -/
theorem C6_blank_paragraph_roundtrip (env : Env) (text tgt : List Char)
    (source : Option (List Char)) :
    [] ∉ callInputs (safe_translate_text_chunks env text tgt source).2 ∧
    ∀ parts,
      (processChunks env (srcOf source) tgt (buildChunks text) 0 0).1 =
        some parts →
      parts.length = (buildChunks text).length ∧
      ∀ i (h1 : i < (buildChunks text).length) (h2 : i < parts.length),
        (buildChunks text).get ⟨i, h1⟩ = [] → parts.get ⟨i, h2⟩ = [] := by
  constructor
  · intro hmem
    obtain ⟨s, g, hcall⟩ := (mem_callInputs _ _).mp hmem
    have htr : (safe_translate_text_chunks env text tgt source).2 =
        (processChunks env (srcOf source) tgt (buildChunks text) 0 0).2.1 :=
      rfl
    rw [htr] at hcall
    exact processChunks_calls_ne_nil env (srcOf source) tgt
      (buildChunks text) 0 0 _ hcall s g [] rfl rfl
  · intro parts h
    exact processChunks_parts env (srcOf source) tgt (buildChunks text)
      0 0 parts h

theorem C6_blank_paragraph_roundtrip_witness :
    (let env : Env :=
      { tr := fun _ _ _ s => some s, ask := fun _ => true,
        jit := fun _ => 0 }
     [] ∉ callInputs
        (safe_translate_text_chunks env ("a\n\n \n\nb").data ("en").data
          none).2 ∧
      (processChunks env (srcOf none) ("en").data
          (buildChunks ("a\n\n \n\nb").data) 0 0).1 =
        some [("a").data, [], ("b").data]) := by
  refine ⟨(C6_blank_paragraph_roundtrip _ ("a\n\n \n\nb").data ("en").data
    none).1, ?_⟩
  decide

/-- C9: the remote translator is always constructed with the source
computed by `srcOf`: `None`, the empty string and `"unknown"` become
`"auto"`, and any other source code is passed through unchanged; every
remote call in any pipeline trace carries exactly that source. -/
theorem C9_source_language_fallback (env : Env) (text tgt : List Char)
    (source : Option (List Char)) :
    (∀ s ∈ callSrcs (safe_translate_text_chunks env text tgt source).2,
      s = srcOf source) ∧
    srcOf none = ("auto").data ∧
    srcOf (some []) = ("auto").data ∧
    srcOf (some ("unknown").data) = ("auto").data ∧
    ∀ s, s ≠ [] → s ≠ ("unknown").data → srcOf (some s) = s := by
  refine ⟨?_, rfl, by decide, by decide, ?_⟩
  · intro s hs
    obtain ⟨g, t, hcall⟩ := (mem_callSrcs _ _).mp hs
    have htr : (safe_translate_text_chunks env text tgt source).2 =
        (processChunks env (srcOf source) tgt (buildChunks text) 0 0).2.1 :=
      rfl
    rw [htr] at hcall
    exact processChunks_calls_src env (srcOf source) tgt (buildChunks text)
      0 0 _ hcall s g t rfl
  · intro s h1 h2
    rw [srcOf]
    exact if_pos ⟨h1, h2⟩

theorem C9_source_language_fallback_witness :
    (let env : Env :=
      { tr := fun _ _ _ s => some s, ask := fun _ => true,
        jit := fun _ => 0 }
     ∀ s ∈ callSrcs
        (safe_translate_text_chunks env ("hello").data ("en").data
          (some ("pt").data)).2, s = srcOf (some ("pt").data)) ∧
    srcOf (some ("pt").data) = ("pt").data :=
  ⟨(C9_source_language_fallback _ ("hello").data ("en").data
      (some ("pt").data)).1,
    (C9_source_language_fallback
        { tr := fun _ _ _ s => some s, ask := fun _ => true,
          jit := fun _ => 0 } ("hello").data ("en").data
        (some ("pt").data)).2.2.2.2 ("pt").data (by decide) (by decide)⟩

/-- Unfolding of the main retry loop when all `TRANSLATE_RETRIES = 4`
attempts fail: four calls with exponential backoff sleeps `1, 2, 4`
seconds (plus jitter) between them, then the exhaustion fallback. -/
theorem mainAttempts_fail4 (env : Env) (src tgt chunk : List Char)
    (n k : Nat) (hfail : ∀ i < 4, env.tr (n + i) src tgt chunk = none) :
    mainAttempts env src tgt chunk (TRANSLATE_RETRIES - 1) 1 n k =
      ((exhaustFallback env src tgt chunk (n + 4) k).1,
        [Ev.call src tgt chunk, Ev.sleep (1 + env.jit n),
         Ev.call src tgt chunk, Ev.sleep (2 + env.jit (n + 1)),
         Ev.call src tgt chunk, Ev.sleep (4 + env.jit (n + 2)),
         Ev.call src tgt chunk] ++
          (exhaustFallback env src tgt chunk (n + 4) k).2.1,
        (exhaustFallback env src tgt chunk (n + 4) k).2.2) := by
  have h0 : env.tr n src tgt chunk = none := by
    have := hfail 0 (by omega); simpa using this
  have h1 : env.tr (n + 1) src tgt chunk = none := hfail 1 (by omega)
  have h2 : env.tr (n + 2) src tgt chunk = none := hfail 2 (by omega)
  have h3 : env.tr (n + 3) src tgt chunk = none := hfail 3 (by omega)
  have e1 := mainAttempts_succ_none env src tgt chunk 2 1 n k h0
  have e2 := mainAttempts_succ_none env src tgt chunk 1 2 (n + 1) k h1
  have e3 := mainAttempts_succ_none env src tgt chunk 0 3 (n + 2) k h2
  have e4 := mainAttempts_zero_none env src tgt chunk 4 (n + 3) k h3
  simp only [show (2 : Nat) + 1 = 3 from rfl, show (1 : Nat) + 1 = 2 from rfl,
    show (0 : Nat) + 1 = 1 from rfl, show (2 : Nat) + 1 = 3 from rfl,
    show (3 : Nat) + 1 = 4 from rfl,
    show n + 1 + 1 = n + 2 from by omega,
    show n + 2 + 1 = n + 3 from by omega,
    show n + 3 + 1 = n + 4 from by omega] at e1 e2 e3 e4
  rw [show TRANSLATE_RETRIES - 1 = 3 from rfl, e1, e2, e3, e4]
  norm_num [TRANSLATE_BACKOFF]

/-- Unfolding of the sub-piece retry loop when all 3 sub-attempts fail:
three calls with linear backoff sleeps `0.5, 1.0, 1.5` seconds. -/
theorem subAttempts_fail3 (env : Env) (src tgt sub : List Char) (m : Nat)
    (hfail : ∀ j < 3, env.tr (m + j) src tgt sub = none) :
    subAttempts env src tgt sub 3 1 m =
      (none,
        [Ev.call src tgt sub, Ev.sleep (1 / 2 : ℚ),
         Ev.call src tgt sub, Ev.sleep (1 : ℚ),
         Ev.call src tgt sub, Ev.sleep (3 / 2 : ℚ)], m + 3) := by
  have h0 : env.tr m src tgt sub = none := by
    have := hfail 0 (by omega); simpa using this
  have h1 : env.tr (m + 1) src tgt sub = none := hfail 1 (by omega)
  have h2 : env.tr (m + 2) src tgt sub = none := hfail 2 (by omega)
  have e1 := subAttempts_none env src tgt sub 2 1 m h0
  have e2 := subAttempts_none env src tgt sub 1 2 (m + 1) h1
  have e3 := subAttempts_none env src tgt sub 0 3 (m + 2) h2
  have e4 := subAttempts_zero env src tgt sub 4 (m + 3)
  simp only [show (2 : Nat) + 1 = 3 from rfl, show (1 : Nat) + 1 = 2 from rfl,
    show (0 : Nat) + 1 = 1 from rfl, show (3 : Nat) + 1 = 4 from rfl,
    show m + 1 + 1 = m + 2 from by omega,
    show m + 2 + 1 = m + 3 from by omega] at e1 e2 e3 e4
  rw [e1, e2, e3, e4]
  norm_num

/-! ### Claim C7 -/

/-- C7: when all 4 translation attempts for a chunk longer than 1000
characters fail, the chunk is re-split with limit
`max(1000, MAX_TRANSLATE_CHARS // 3)` and each sub-piece retried
independently up to 3 attempts with linear backoff `0.5 * sub_attempt`
seconds; if every sub-piece succeeds the results are joined with a newline
and the chunk terminates with success, and if any sub-piece exhausts its
sub-retries the chunk falls through to the operator decision. -/
theorem C7_subsplit_recovery (env : Env) (src tgt chunk : List Char)
    (n k : Nat) (hlen : 1000 < chunk.length)
    (hfail : ∀ i < 4, env.tr (n + i) src tgt chunk = none) :
    (mainAttempts env src tgt chunk (TRANSLATE_RETRIES - 1) 1 n k =
      ((match (subSplitAll env src tgt
          (split_text_preserve_sentences chunk
            (max 1000 (MAX_TRANSLATE_CHARS / 3))) (n + 4)).1 with
        | some ts => ChunkRes.success (List.intercalate ['\n'] ts)
        | none => if env.ask k then ChunkRes.success chunk
                  else ChunkRes.aborted),
       ([Ev.call src tgt chunk, Ev.sleep (1 + env.jit n),
         Ev.call src tgt chunk, Ev.sleep (2 + env.jit (n + 1)),
         Ev.call src tgt chunk, Ev.sleep (4 + env.jit (n + 2)),
         Ev.call src tgt chunk] ++
          (subSplitAll env src tgt
            (split_text_preserve_sentences chunk
              (max 1000 (MAX_TRANSLATE_CHARS / 3))) (n + 4)).2.1) ++
         (match (subSplitAll env src tgt
            (split_text_preserve_sentences chunk
              (max 1000 (MAX_TRANSLATE_CHARS / 3))) (n + 4)).1 with
          | some _ => []
          | none => [Ev.ask]),
       (subSplitAll env src tgt
          (split_text_preserve_sentences chunk
            (max 1000 (MAX_TRANSLATE_CHARS / 3))) (n + 4)).2.2,
       (match (subSplitAll env src tgt
          (split_text_preserve_sentences chunk
            (max 1000 (MAX_TRANSLATE_CHARS / 3))) (n + 4)).1 with
        | some _ => k
        | none => k + 1))) ∧
    (∀ sub m t, env.tr m src tgt sub = some t →
      subAttempts env src tgt sub 3 1 m =
        (some (normalize_mojibake t), [Ev.call src tgt sub], m + 1)) ∧
    (∀ sub m, (∀ j < 3, env.tr (m + j) src tgt sub = none) →
      subAttempts env src tgt sub 3 1 m =
        (none,
          [Ev.call src tgt sub, Ev.sleep (1 / 2 : ℚ),
           Ev.call src tgt sub, Ev.sleep (1 : ℚ),
           Ev.call src tgt sub, Ev.sleep (3 / 2 : ℚ)], m + 3)) := by
  refine ⟨?_, ?_, ?_⟩
  · rw [mainAttempts_fail4 env src tgt chunk n k hfail]
    rw [exhaustFallback, if_pos hlen]
    dsimp only
    cases hF : (subSplitAll env src tgt
        (split_text_preserve_sentences chunk
          (max 1000 (MAX_TRANSLATE_CHARS / 3))) (n + 4)).1 with
    | some ts => simp [hF]
    | none =>
      simp only [hF, askFallback]
      by_cases hask : env.ask k
      · simp [hask]
      · simp [hask]
  · intro sub m t h
    exact subAttempts_some env src tgt sub t 2 1 m h
  · intro sub m h
    exact subAttempts_fail3 env src tgt sub m h

set_option maxRecDepth 100000 in
theorem C7_subsplit_recovery_witness :
    1000 < (List.replicate 1001 'a').length ∧
      (mainAttempts
        { tr := fun i _ _ text => if i < 4 then none else some text,
          ask := fun _ => false, jit := fun _ => 0 }
        ("auto").data ("en").data (List.replicate 1001 'a')
        (TRANSLATE_RETRIES - 1) 1 0 0).1 =
        ChunkRes.success (List.replicate 1001 'a') := by
  refine ⟨by simp, ?_⟩
  have h := C7_subsplit_recovery
    { tr := fun i _ _ text => if i < 4 then none else some text,
      ask := fun _ => false, jit := fun _ => 0 }
    ("auto").data ("en").data (List.replicate 1001 'a') 0 0
    (by simp) (by decide)
  rw [h.1]
  decide

/-! ### Claim C8 -/

/-- C8: when the translator fails all 4 attempts on a short chunk (no
sub-split recovery available) and the operator declines degradation, the
pipeline aborts: the chunk list `[c1, c2, c3]` yields the `none` outcome,
the trace shows chunk 1's successful call and stops at the operator
prompt without any event for chunk 3, and chunk 1's own processing had
already produced its successful result. -/
theorem C8_abort_on_declined_degradation (env : Env)
    (src tgt c1 c2 c3 t1 : List Char) (n k : Nat)
    (h1 : c1 ≠ []) (h2 : c2 ≠ []) (h2len : c2.length ≤ 1000)
    (hok : env.tr n src tgt c1 = some t1)
    (hfail : ∀ i < 4, env.tr (n + 1 + i) src tgt c2 = none)
    (hno : env.ask k = false) :
    processChunks env src tgt [c1, c2, c3] n k =
      (none,
        [Ev.call src tgt c1,
         Ev.call src tgt c2, Ev.sleep (1 + env.jit (n + 1)),
         Ev.call src tgt c2, Ev.sleep (2 + env.jit (n + 2)),
         Ev.call src tgt c2, Ev.sleep (4 + env.jit (n + 3)),
         Ev.call src tgt c2, Ev.ask],
        n + 5, k + 1) ∧
    processChunk env src tgt c1 n k =
      (ChunkRes.success (normalize_mojibake t1), [Ev.call src tgt c1],
        n + 1, k) := by
  have hpc1 : processChunk env src tgt c1 n k =
      (ChunkRes.success (normalize_mojibake t1), [Ev.call src tgt c1],
        n + 1, k) := by
    rw [processChunk, if_neg h1]
    exact mainAttempts_some env src tgt c1 t1 (TRANSLATE_RETRIES - 1) 1 n k hok
  refine ⟨?_, hpc1⟩
  have hex : exhaustFallback env src tgt c2 (n + 1 + 4) k =
      (ChunkRes.aborted, [Ev.ask], n + 5, k + 1) := by
    rw [exhaustFallback, if_neg (by omega), askFallback, hno]
    norm_num
  have hm2 := mainAttempts_fail4 env src tgt c2 (n + 1) k hfail
  rw [hex] at hm2
  simp only [show n + 1 + 1 = n + 2 from by omega,
    show n + 1 + 2 = n + 3 from by omega] at hm2
  have hpc2 : processChunk env src tgt c2 (n + 1) k =
      (ChunkRes.aborted,
        [Ev.call src tgt c2, Ev.sleep (1 + env.jit (n + 1)),
         Ev.call src tgt c2, Ev.sleep (2 + env.jit (n + 2)),
         Ev.call src tgt c2, Ev.sleep (4 + env.jit (n + 3)),
         Ev.call src tgt c2, Ev.ask],
        n + 5, k + 1) := by
    rw [processChunk, if_neg h2, hm2]
    simp
  rw [processChunks]
  simp only []
  rw [hpc1]
  dsimp only
  rw [processChunks]
  simp only []
  rw [hpc2]
  dsimp only
  simp

theorem C8_abort_on_declined_degradation_witness :
    (("a").data ≠ [] ∧ ("b").data ≠ [] ∧ ("b").data.length ≤ 1000) ∧
      processChunks
        { tr := fun i _ _ text => if i = 0 then some text else none,
          ask := fun _ => false, jit := fun _ => 0 }
        ("auto").data ("en").data
        [("a").data, ("b").data, ("c").data] 0 0 =
      (none,
        [Ev.call ("auto").data ("en").data ("a").data,
         Ev.call ("auto").data ("en").data ("b").data, Ev.sleep 1,
         Ev.call ("auto").data ("en").data ("b").data, Ev.sleep 2,
         Ev.call ("auto").data ("en").data ("b").data, Ev.sleep 4,
         Ev.call ("auto").data ("en").data ("b").data, Ev.ask],
        5, 1) := by
  refine ⟨⟨by decide, by decide, by decide⟩, ?_⟩
  have h := (C8_abort_on_declined_degradation
    { tr := fun i _ _ text => if i = 0 then some text else none,
      ask := fun _ => false, jit := fun _ => 0 }
    ("auto").data ("en").data ("a").data ("b").data ("c").data
    ("a").data 0 0 (by decide) (by decide) (by decide) (by decide)
    (by decide) (by decide)).1
  rw [h]
  norm_num

/-! ### Claim C5 -/

/-- C5: the heuristic re-decode step of the normalizer is total and
conditional.  It is a total function (the embedding returns a value for
every string; the `except` branch of the source is the `none` case of
`latin1Utf8`): when the string contains a diagnostic character (`Ã` or
`â`) it re-interprets the whole string as Latin-1 bytes decoded as UTF-8
and keeps the result only if that strictly reduces the count of `â`;
otherwise — no diagnostic character, encode/decode failure, or no strict
improvement — the string is left unchanged. -/
theorem C5_redecode_conditional (s : List Char) :
    (('Ã' ∉ s ∧ 'â' ∉ s) → redecodeStep s = s) ∧
    (latin1Utf8 s = none → redecodeStep s = s) ∧
    (∀ s2, latin1Utf8 s = some s2 →
      ¬ countC 'â' s2 < countC 'â' s → redecodeStep s = s) ∧
    (('Ã' ∈ s ∨ 'â' ∈ s) → ∀ s2, latin1Utf8 s = some s2 →
      countC 'â' s2 < countC 'â' s → redecodeStep s = s2) ∧
    (redecodeStep s = s ∨
      (('Ã' ∈ s ∨ 'â' ∈ s) ∧ ∃ s2, latin1Utf8 s = some s2 ∧
        countC 'â' s2 < countC 'â' s ∧ redecodeStep s = s2)) := by
  by_cases hdiag : 'Ã' ∈ s ∨ 'â' ∈ s
  · cases hdec : latin1Utf8 s with
    | none =>
      have hre : redecodeStep s = s := by
        rw [redecodeStep, if_pos hdiag, hdec]
      exact ⟨fun _ => hre, fun _ => hre,
        fun s2 hs2 => Option.noConfusion hs2,
        fun _ s2 hs2 => Option.noConfusion hs2,
        Or.inl hre⟩
    | some s2 =>
      by_cases hcnt : countC 'â' s2 < countC 'â' s
      · have hre : redecodeStep s = s2 := by
          rw [redecodeStep, if_pos hdiag, hdec]
          exact if_pos hcnt
        refine ⟨?_, ?_, ?_, ?_, Or.inr ⟨hdiag, s2, rfl, hcnt, hre⟩⟩
        · rintro ⟨hc, he⟩
          rcases hdiag with h | h
          · exact absurd h hc
          · exact absurd h he
        · intro hnone; exact Option.noConfusion hnone
        · intro t2 ht2 hnc
          obtain rfl : s2 = t2 := Option.some.inj ht2
          exact absurd hcnt hnc
        · intro _ t2 ht2 hc2
          obtain rfl : s2 = t2 := Option.some.inj ht2
          exact hre
      · have hre : redecodeStep s = s := by
          rw [redecodeStep, if_pos hdiag, hdec]
          exact if_neg hcnt
        refine ⟨fun _ => hre, fun hn => Option.noConfusion hn, ?_, ?_,
          Or.inl hre⟩
        · intro t2 ht2 hnc; exact hre
        · intro _ t2 ht2 hc2
          obtain rfl : s2 = t2 := Option.some.inj ht2
          exact absurd hc2 hcnt
  · have hre : redecodeStep s = s := by
      rw [redecodeStep, if_neg hdiag]
    exact ⟨fun _ => hre, fun _ => hre, fun _ _ _ => hre,
      fun h => absurd h hdiag, Or.inl hre⟩

theorem C5_redecode_conditional_witness :
    latin1Utf8 ['â', '\u0080', '\u0099'] = some ['’'] ∧
    countC 'â' ['’'] <
      countC 'â' ['â', '\u0080', '\u0099'] ∧
    redecodeStep ['â', '\u0080', '\u0099'] = ['’'] :=
  ⟨by decide, by decide,
    (C5_redecode_conditional ['â', '\u0080', '\u0099']).2.2.2.1
      (Or.inr (by decide)) ['’'] (by decide) (by decide)⟩

/-! ### Helper lemmas about pyReplace -/

theorem stripFrontQ_suffix : ∀ key s rem : List Char,
    stripFrontQ key s = some rem → rem <:+ s := by
  intro key
  induction key with
  | nil =>
    intro s rem h
    rw [stripFrontQ] at h
    obtain rfl := Option.some.inj h
    exact List.suffix_rfl
  | cons k ks ih =>
    intro s rem h
    cases s with
    | nil => rw [stripFrontQ] at h; exact Option.noConfusion h
    | cons c cs =>
      rw [stripFrontQ] at h
      by_cases hc : c = k
      · rw [if_pos hc] at h
        exact (ih cs rem h).trans (List.suffix_cons c cs)
      · rw [if_neg hc] at h
        exact Option.noConfusion h

theorem stripFrontQ_single (c d : Char) (cs : List Char) :
    stripFrontQ [c] (d :: cs) = if d = c then some cs else none := by
  rw [stripFrontQ]
  by_cases h : d = c
  · rw [if_pos h, if_pos h, stripFrontQ]
  · rw [if_neg h, if_neg h]

theorem mem_replaceFuel (key new : List Char) :
    ∀ fuel s d, d ∈ replaceFuel key new fuel s → d ∈ s ∨ d ∈ new := by
  intro fuel
  induction fuel with
  | zero => intro s d h; rw [replaceFuel] at h; exact Or.inl h
  | succ f ih =>
    intro s d h
    cases s with
    | nil => rw [replaceFuel] at h; simp at h
    | cons c cs =>
      rw [replaceFuel] at h
      cases hq : stripFrontQ key (c :: cs) with
      | some rem =>
        rw [hq] at h
        dsimp only at h
        by_cases hk : key.isEmpty
        · rw [if_pos hk] at h; exact Or.inl h
        · rw [if_neg hk] at h
          rcases List.mem_append.mp h with h1 | h1
          · exact Or.inr h1
          · rcases ih rem d h1 with h2 | h2
            · exact Or.inl ((stripFrontQ_suffix key _ rem hq).subset h2)
            · exact Or.inr h2
      | none =>
        rw [hq] at h
        dsimp only at h
        rcases List.mem_cons.mp h with rfl | h1
        · exact Or.inl (by simp)
        · rcases ih cs d h1 with h2 | h2
          · exact Or.inl (by simp [h2])
          · exact Or.inr h2

theorem mem_pyReplace (key new s : List Char) (d : Char)
    (h : d ∈ pyReplace key new s) : d ∈ s ∨ d ∈ new :=
  mem_replaceFuel key new s.length s d h

theorem replaceFuel_not_head_mem (k : Char) (ks new : List Char) :
    ∀ fuel s, k ∉ s → replaceFuel (k :: ks) new fuel s = s := by
  intro fuel
  induction fuel with
  | zero => intro s _; rw [replaceFuel]
  | succ f ih =>
    intro s hk
    cases s with
    | nil => rw [replaceFuel]
    | cons c cs =>
      have hck : ¬ c = k := fun h => hk (by simp [h])
      rw [replaceFuel,
        show stripFrontQ (k :: ks) (c :: cs) = none from by
          rw [stripFrontQ]; exact if_neg hck,
        ih cs fun h => hk (by simp [h])]

theorem pyReplace_not_head_mem (k : Char) (ks new s : List Char)
    (h : k ∉ s) : pyReplace (k :: ks) new s = s :=
  replaceFuel_not_head_mem k ks new s.length s h

theorem replaceFuel_self (c : Char) :
    ∀ fuel s, replaceFuel [c] [c] fuel s = s := by
  intro fuel
  induction fuel with
  | zero => intro s; rw [replaceFuel]
  | succ f ih =>
    intro s
    cases s with
    | nil => rw [replaceFuel]
    | cons d cs =>
      by_cases hdc : d = c
      · rw [replaceFuel, show stripFrontQ [c] (d :: cs) = some cs from by
          rw [stripFrontQ_single, if_pos hdc]]
        dsimp only
        rw [if_neg (by simp), ih]
        simp [hdc]
      · rw [replaceFuel, show stripFrontQ [c] (d :: cs) = none from by
          rw [stripFrontQ_single, if_neg hdc]]
        dsimp only
        rw [ih]

theorem pyReplace_self (c : Char) (s : List Char) :
    pyReplace [c] [c] s = s :=
  replaceFuel_self c s.length s

theorem replaceFuel_single_not_mem (c : Char) (new : List Char)
    (hc : c ∉ new) : ∀ fuel s, s.length ≤ fuel →
      c ∉ replaceFuel [c] new fuel s := by
  intro fuel
  induction fuel with
  | zero =>
    intro s hs
    obtain rfl : s = [] := List.length_eq_zero.mp (Nat.le_zero.mp hs)
    rw [replaceFuel]
    simp
  | succ f ih =>
    intro s hs
    cases s with
    | nil => rw [replaceFuel]; simp
    | cons d cs =>
      have hlen : cs.length ≤ f := by
        simp only [List.length_cons] at hs; omega
      by_cases hdc : d = c
      · rw [replaceFuel, show stripFrontQ [c] (d :: cs) = some cs from by
          rw [stripFrontQ_single, if_pos hdc]]
        dsimp only
        rw [if_neg (by simp)]
        intro hmem
        rcases List.mem_append.mp hmem with h1 | h1
        · exact hc h1
        · exact ih cs hlen h1
      · rw [replaceFuel, show stripFrontQ [c] (d :: cs) = none from by
          rw [stripFrontQ_single, if_neg hdc]]
        dsimp only
        intro hmem
        rcases List.mem_cons.mp hmem with h1 | h1
        · exact hdc h1.symm
        · exact ih cs hlen h1

theorem pyReplace_single_not_mem (c : Char) (new s : List Char)
    (hc : c ∉ new) : c ∉ pyReplace [c] new s :=
  replaceFuel_single_not_mem c new hc s.length s le_rfl

/-- When the text contains no `â`, the seven mojibake substitutions are
no-ops and the identity substitution for `’` does nothing, so the table
reduces to the single `‘ → '` substitution. -/
theorem applyRepl_no_a (s : List Char) (ha : 'â' ∉ s) :
    applyRepl s = pyReplace ['‘'] ['\''] s := by
  simp only [applyRepl]
  rw [pyReplace_not_head_mem _ _ _ _ ha, pyReplace_not_head_mem _ _ _ _ ha,
    pyReplace_not_head_mem _ _ _ _ ha, pyReplace_not_head_mem _ _ _ _ ha,
    pyReplace_not_head_mem _ _ _ _ ha, pyReplace_not_head_mem _ _ _ _ ha,
    pyReplace_not_head_mem _ _ _ _ ha, pyReplace_self]

/-! ### Normal-form lemmas for the whitespace substitutions -/

theorem noHH_cons (a : Char) (l : List Char) :
    noHH (a :: l) = ((!(isHT a && headP isHT l)) && noHH l) := rfl

theorem noNNN_cons (a : Char) (l : List Char) :
    noNNN (a :: l) = ((!(a == '\n' && head2NN l)) && noNNN l) := rfl

theorem head2NN_cons2 (a b : Char) (l : List Char) :
    head2NN (a :: b :: l) = (a == '\n' && b == '\n') := rfl

theorem head2NN_cons_ne (c : Char) (l : List Char) (h : (c == '\n') = false) :
    head2NN (c :: l) = false := by
  cases l with
  | nil => rfl
  | cons d t => rw [head2NN_cons2, h, Bool.false_and]

theorem noHH_tail (a : Char) (l : List Char) (h : noHH (a :: l) = true) :
    noHH l = true := by
  rw [noHH_cons, Bool.and_eq_true] at h
  exact h.2

theorem noNNN_tail (a : Char) (l : List Char) (h : noNNN (a :: l) = true) :
    noNNN l = true := by
  rw [noNNN_cons, Bool.and_eq_true] at h
  exact h.2

theorem collapseHT_head (d : Char) (rest : List Char) (h : isHT d = false) :
    ∃ t, collapseHT (d :: rest) = d :: t := by
  cases rest with
  | nil => rw [collapseHT, if_neg (by simp [h])]; exact ⟨[], rfl⟩
  | cons e rest2 =>
    rw [collapseHT, if_neg (by simp [h])]
    exact ⟨_, rfl⟩

theorem noTab_collapseHT : ∀ s : List Char, '\t' ∉ collapseHT s := by
  intro s
  induction s with
  | nil => rw [collapseHT]; simp
  | cons c rest ih =>
    cases rest with
    | nil =>
      rw [collapseHT]
      by_cases h : isHT c
      · rw [if_pos h]; simp
      · rw [if_neg h]
        intro hm
        simp only [List.mem_singleton] at hm
        exact h (by simp [← hm, isHT])
    | cons d rest2 =>
      rw [collapseHT]
      by_cases hc : isHT c
      · rw [if_pos hc]
        by_cases hd : isHT d
        · rw [if_pos hd]; exact ih
        · rw [if_neg hd]
          intro hm
          rcases List.mem_cons.mp hm with h1 | h1
          · exact absurd h1.symm (by simp)
          · exact ih h1
      · rw [if_neg hc]
        intro hm
        rcases List.mem_cons.mp hm with h1 | h1
        · exact hc (by simp [← h1, isHT])
        · exact ih h1

theorem noHH_collapseHT : ∀ s : List Char, noHH (collapseHT s) = true := by
  intro s
  induction s with
  | nil => rw [collapseHT]; rfl
  | cons c rest ih =>
    cases rest with
    | nil =>
      rw [collapseHT]
      split <;> simp [noHH_cons, headP, noHH]
    | cons d rest2 =>
      rw [collapseHT]
      by_cases hc : isHT c
      · rw [if_pos hc]
        by_cases hd : isHT d
        · rw [if_pos hd]; exact ih
        · rw [if_neg hd]
          obtain ⟨t, ht⟩ := collapseHT_head d rest2 (by simpa using hd)
          rw [noHH_cons, Bool.and_eq_true]
          refine ⟨?_, ih⟩
          rw [ht]
          have hdf : isHT d = false := by simpa using hd
          simp [headP, hdf]
      · rw [if_neg hc]
        rw [noHH_cons, Bool.and_eq_true]
        refine ⟨?_, ih⟩
        simp [hc]

theorem collapseHT_eq_self : ∀ s : List Char, '\t' ∉ s → noHH s = true →
    collapseHT s = s := by
  intro s
  induction s with
  | nil => intro _ _; rw [collapseHT]
  | cons c rest ih =>
    intro hTab h
    have hct : ¬ c = '\t' := fun hh => hTab (by simp [hh])
    cases rest with
    | nil =>
      rw [collapseHT]
      by_cases hc : isHT c
      · rw [if_pos hc]
        have hsp : c = ' ' := by
          have h1 : c = ' ' ∨ c = '\t' := by simpa [isHT] using hc
          rcases h1 with h1 | h1
          · exact h1
          · exact absurd h1 hct
        rw [hsp]
      · rw [if_neg hc]
    | cons d rest2 =>
      have htail : noHH (d :: rest2) = true := noHH_tail _ _ h
      have hTab2 : '\t' ∉ d :: rest2 := fun hh => hTab (by simp [hh])
      rw [collapseHT]
      by_cases hc : isHT c
      · have hd : isHT d = false := by
          rw [noHH_cons, Bool.and_eq_true] at h
          have h1 := h.1
          rw [hc] at h1
          simpa [headP] using h1
        rw [if_pos hc, if_neg (by simp [hd])]
        have hcsp : c = ' ' := by
          have h1 : c = ' ' ∨ c = '\t' := by simpa [isHT] using hc
          rcases h1 with h1 | h1
          · exact h1
          · exact absurd h1 hct
        rw [ih hTab2 htail, hcsp]
      · rw [if_neg hc, ih hTab2 htail]

theorem mem_collapseHT : ∀ (s : List Char) (d : Char),
    d ∈ collapseHT s → d ∈ s ∨ d = ' ' := by
  intro s
  induction s with
  | nil => intro d h; rw [collapseHT] at h; simp at h
  | cons c rest ih =>
    intro d h
    cases rest with
    | nil =>
      rw [collapseHT] at h
      split at h
      · simp only [List.mem_singleton] at h; exact Or.inr h
      · simp only [List.mem_singleton] at h; exact Or.inl (by simp [h])
    | cons e rest2 =>
      rw [collapseHT] at h
      split at h
      · split at h
        · rcases ih d h with h1 | h1
          · exact Or.inl (by simp [h1])
          · exact Or.inr h1
        · rcases List.mem_cons.mp h with rfl | h1
          · exact Or.inr rfl
          · rcases ih d h1 with h2 | h2
            · exact Or.inl (by simp [h2])
            · exact Or.inr h2
      · rcases List.mem_cons.mp h with rfl | h1
        · exact Or.inl (by simp)
        · rcases ih d h1 with h2 | h2
          · exact Or.inl (by simp [h2])
          · exact Or.inr h2

theorem nlOut_eq_replicate (k : Nat) (h : k ≤ 2) :
    nlOut k = List.replicate k '\n' := by
  rw [nlOut, if_neg (by omega)]

theorem nlOut_as_replicate (k : Nat) :
    ∃ m, m ≤ 2 ∧ nlOut k = List.replicate m '\n' := by
  by_cases h : 3 ≤ k
  · exact ⟨2, by omega, by rw [nlOut, if_pos h]; rfl⟩
  · exact ⟨k, by omega, nlOut_eq_replicate k (by omega)⟩

theorem mem_nlOut (k : Nat) (d : Char) (h : d ∈ nlOut k) : d = '\n' := by
  obtain ⟨m, _, hm⟩ := nlOut_as_replicate k
  rw [hm] at h
  exact List.eq_of_mem_replicate h

theorem nlOut_pos (k : Nat) (h : 1 ≤ k) : ∃ t, nlOut k = '\n' :: t := by
  obtain ⟨m, hm2, hm⟩ := nlOut_as_replicate k
  rw [hm]
  cases m with
  | zero =>
    exfalso
    rw [nlOut] at hm
    split at hm
    · exact List.noConfusion hm
    · have : k = 0 := by
        have := congrArg List.length hm
        simpa using this
      omega
  | succ m2 => exact ⟨List.replicate m2 '\n', by rw [List.replicate_succ]⟩

theorem collapseNLGo_pos (s : List Char) : ∀ k, 1 ≤ k →
    ∃ t, collapseNLGo k s = '\n' :: t := by
  induction s with
  | nil => intro k hk; rw [collapseNLGo]; exact nlOut_pos k hk
  | cons c rest ih =>
    intro k hk
    rw [collapseNLGo]
    by_cases hc : c = '\n'
    · rw [if_pos hc]; exact ih (k + 1) (by omega)
    · rw [if_neg hc]
      obtain ⟨t, ht⟩ := nlOut_pos k hk
      rw [ht]
      exact ⟨_, rfl⟩

theorem headP_isHT_nlOut (k : Nat) : headP isHT (nlOut k) = false := by
  obtain ⟨m, _, hm⟩ := nlOut_as_replicate k
  rw [hm]
  cases m with
  | zero => rfl
  | succ m2 => rw [List.replicate_succ]; simp [headP, isHT]

theorem headP_isHT_collapseNLGo (s : List Char) : ∀ k,
    headP isHT (collapseNLGo k s) = true → headP isHT s = true := by
  induction s with
  | nil =>
    intro k h
    rw [collapseNLGo] at h
    rw [headP_isHT_nlOut] at h
    exact absurd h (by simp)
  | cons c rest ih =>
    intro k h
    rw [collapseNLGo] at h
    by_cases hc : c = '\n'
    · rw [if_pos hc] at h
      obtain ⟨t, ht⟩ := collapseNLGo_pos rest (k + 1) (by omega)
      rw [ht] at h
      simp [headP, isHT] at h
    · rw [if_neg hc] at h
      cases hk : nlOut k with
      | nil =>
        rw [hk] at h
        simpa [headP] using h
      | cons e t =>
        rw [hk] at h
        have he : e = '\n' := mem_nlOut k e (by rw [hk]; simp)
        subst he
        simp [headP, isHT] at h

theorem noHH_replicate_nl (m : Nat) :
    noHH (List.replicate m '\n') = true := by
  induction m with
  | zero => rfl
  | succ m2 ih =>
    rw [List.replicate_succ, noHH_cons, Bool.and_eq_true]
    exact ⟨by simp [isHT], ih⟩

theorem noHH_replicate_nl_append (l : List Char) : ∀ m : Nat,
    noHH (List.replicate m '\n' ++ l) = noHH l := by
  intro m
  induction m with
  | zero => rfl
  | succ m2 ih =>
    rw [List.replicate_succ, List.cons_append, noHH_cons, ih]
    simp [isHT]

theorem noHH_collapseNLGo (s : List Char) : ∀ k, noHH s = true →
    noHH (collapseNLGo k s) = true := by
  induction s with
  | nil =>
    intro k _
    rw [collapseNLGo]
    obtain ⟨m, _, hm⟩ := nlOut_as_replicate k
    rw [hm]
    exact noHH_replicate_nl m
  | cons c rest ih =>
    intro k h
    rw [collapseNLGo]
    by_cases hc : c = '\n'
    · rw [if_pos hc]
      exact ih (k + 1) (noHH_tail _ _ h)
    · rw [if_neg hc]
      obtain ⟨m, _, hm⟩ := nlOut_as_replicate k
      rw [hm, noHH_replicate_nl_append, noHH_cons, Bool.and_eq_true]
      refine ⟨?_, ih 0 (noHH_tail _ _ h)⟩
      by_cases hcH : isHT c
      · by_cases hH : headP isHT (collapseNLGo 0 rest)
        · have := headP_isHT_collapseNLGo rest 0 hH
          rw [noHH_cons, Bool.and_eq_true] at h
          have h1 := h.1
          rw [hcH, this] at h1
          simp at h1
        · simp only [Bool.not_eq_true] at hH
          rw [hH]
          simp
      · simp only [Bool.not_eq_true] at hcH
        rw [hcH]
        simp

theorem noNNN_nlOut (k : Nat) : noNNN (nlOut k) = true := by
  obtain ⟨m, hm2, hm⟩ := nlOut_as_replicate k
  rw [hm]
  interval_cases m <;> decide

theorem noNNN_replicate_nl_cons (c : Char) (X : List Char) (m : Nat)
    (hm : m ≤ 2) (hc : (c == '\n') = false) (hX : noNNN X = true) :
    noNNN (List.replicate m '\n' ++ c :: X) = true := by
  have base : noNNN (c :: X) = true := by
    rw [noNNN_cons, hc, Bool.false_and, Bool.not_false, Bool.true_and]
    exact hX
  interval_cases m
  · simpa using base
  · show noNNN ('\n' :: c :: X) = true
    rw [noNNN_cons, head2NN_cons_ne c X hc, Bool.and_false, Bool.not_false,
      Bool.true_and]
    exact base
  · show noNNN ('\n' :: '\n' :: c :: X) = true
    rw [noNNN_cons]
    have h2 : head2NN ('\n' :: c :: X) = false := by
      rw [head2NN_cons2, hc]
      simp
    rw [h2, Bool.and_false, Bool.not_false, Bool.true_and, noNNN_cons,
      head2NN_cons_ne c X hc, Bool.and_false, Bool.not_false, Bool.true_and]
    exact base

theorem noNNN_collapseNLGo (s : List Char) : ∀ k,
    noNNN (collapseNLGo k s) = true := by
  induction s with
  | nil => intro k; rw [collapseNLGo]; exact noNNN_nlOut k
  | cons c rest ih =>
    intro k
    rw [collapseNLGo]
    by_cases hc : c = '\n'
    · rw [if_pos hc]; exact ih (k + 1)
    · rw [if_neg hc]
      obtain ⟨m, hm2, hm⟩ := nlOut_as_replicate k
      rw [hm]
      exact noNNN_replicate_nl_cons c _ m hm2 (by simpa using hc) (ih 0)

theorem replicate_nl_append_cons (k : Nat) (l : List Char) :
    List.replicate k '\n' ++ '\n' :: l =
      List.replicate (k + 1) '\n' ++ l := by
  induction k with
  | zero => rfl
  | succ k2 ih =>
    rw [List.replicate_succ, List.cons_append, ih, ← List.cons_append,
      ← List.replicate_succ]

theorem noNNN_append_right : ∀ l1 l2 : List Char,
    noNNN (l1 ++ l2) = true → noNNN l2 = true := by
  intro l1
  induction l1 with
  | nil => intro l2 h; exact h
  | cons c rest ih =>
    intro l2 h
    exact ih l2 (noNNN_tail _ _ h)

theorem collapseNLGo_eq_self (s : List Char) : ∀ k, k ≤ 2 →
    noNNN (List.replicate k '\n' ++ s) = true →
    collapseNLGo k s = List.replicate k '\n' ++ s := by
  induction s with
  | nil =>
    intro k hk _
    rw [collapseNLGo, nlOut_eq_replicate k hk, List.append_nil]
  | cons c rest ih =>
    intro k hk h
    rw [collapseNLGo]
    by_cases hc : c = '\n'
    · subst hc
      rw [if_pos rfl]
      rw [replicate_nl_append_cons] at h
      by_cases hk2 : k + 1 ≤ 2
      · rw [ih (k + 1) hk2 h, replicate_nl_append_cons]
      · exfalso
        have hk3 : k = 2 := by omega
        subst hk3
        rw [show List.replicate 3 '\n' ++ rest =
          '\n' :: '\n' :: '\n' :: rest from rfl] at h
        simp [noNNN_cons, head2NN_cons2] at h
    · rw [if_neg hc, nlOut_eq_replicate k hk]
      have hrest : noNNN rest = true :=
        noNNN_tail _ _ (noNNN_append_right _ _ h)
      have hi := ih 0 (by omega) (by simpa using hrest)
      simp only [List.replicate_zero, List.nil_append] at hi
      rw [hi]

theorem collapseNL_eq_self (s : List Char) (h : noNNN s = true) :
    collapseNL s = s := by
  have hi := collapseNLGo_eq_self s 0 (by omega) (by simpa using h)
  simpa [collapseNL] using hi

theorem mem_collapseNLGo (s : List Char) : ∀ k d, d ∈ collapseNLGo k s →
    d ∈ s ∨ d = '\n' := by
  induction s with
  | nil => intro k d h; rw [collapseNLGo] at h; exact Or.inr (mem_nlOut k d h)
  | cons c rest ih =>
    intro k d h
    rw [collapseNLGo] at h
    by_cases hc : c = '\n'
    · rw [if_pos hc] at h
      rcases ih (k + 1) d h with h1 | h1
      · exact Or.inl (by simp [h1])
      · exact Or.inr h1
    · rw [if_neg hc] at h
      rcases List.mem_append.mp h with h1 | h1
      · exact Or.inr (mem_nlOut k d h1)
      · rcases List.mem_cons.mp h1 with rfl | h2
        · exact Or.inl (by simp)
        · rcases ih 0 d h2 with h3 | h3
          · exact Or.inl (by simp [h3])
          · exact Or.inr h3

/-! ### Normal-form preservation by stripping -/

theorem headP_rstripP (p : Char → Bool) : ∀ l, headP p (rstripP l) = true →
    headP p l = true := by
  intro l h
  cases l with
  | nil => rw [rstripP] at h; exact absurd h (by simp [headP])
  | cons c rest =>
    rcases rstripP_cons_shape c rest with h0 | ⟨r, hr⟩
    · rw [h0] at h; exact absurd h (by simp [headP])
    · rw [hr] at h; exact h

theorem head2NN_rstripP : ∀ l, head2NN (rstripP l) = true →
    head2NN l = true := by
  intro l h
  cases l with
  | nil => rw [rstripP] at h; exact absurd h (by simp [head2NN])
  | cons c rest =>
    rcases rstripP_cons_shape c rest with h0 | ⟨r, hr⟩
    · rw [h0] at h; exact absurd h (by simp [head2NN])
    · rw [hr] at h
      cases r with
      | nil => exact absurd h (by simp [head2NN])
      | cons d t =>
        rw [head2NN_cons2] at h
        rw [rstripP] at hr
        cases hrr : rstripP rest with
        | nil =>
          rw [hrr] at hr
          dsimp at hr
          split at hr
          · exact List.noConfusion hr
          · obtain ⟨-, h2⟩ := List.cons.inj hr
            exact List.noConfusion h2
        | cons e t2 =>
          rw [hrr] at hr
          obtain ⟨-, h2⟩ := List.cons.inj hr
          obtain ⟨rfl, -⟩ := List.cons.inj h2
          cases rest with
          | nil => rw [rstripP] at hrr; exact List.noConfusion hrr
          | cons f rest2 =>
            rcases rstripP_cons_shape f rest2 with h0 | ⟨r2, hr2⟩
            · rw [h0] at hrr; exact List.noConfusion hrr
            · rw [hr2] at hrr
              obtain ⟨rfl, -⟩ := List.cons.inj hrr
              rw [head2NN_cons2]
              exact h

theorem noHH_rstripP : ∀ l, noHH l = true → noHH (rstripP l) = true := by
  intro l
  induction l with
  | nil => intro h; rw [rstripP]; rfl
  | cons c rest ih =>
    intro h
    have htail := noHH_tail _ _ h
    rw [rstripP]
    cases hr : rstripP rest with
    | nil =>
      dsimp
      split
      · rfl
      · simp [noHH_cons, headP, noHH]
    | cons d t =>
      dsimp
      have ihr := ih htail
      rw [hr] at ihr
      rw [noHH_cons, Bool.and_eq_true]
      refine ⟨?_, ihr⟩
      by_cases hcH : isHT c = true
      · by_cases hH : headP isHT (d :: t) = true
        · have hhr : headP isHT rest = true :=
            headP_rstripP isHT rest (by rw [hr]; exact hH)
          rw [noHH_cons, Bool.and_eq_true] at h
          have h1 := h.1
          rw [hcH, hhr] at h1
          simp at h1
        · simp only [Bool.not_eq_true] at hH
          rw [hH]
          simp
      · simp only [Bool.not_eq_true] at hcH
        rw [hcH]
        simp

theorem noNNN_rstripP : ∀ l, noNNN l = true → noNNN (rstripP l) = true := by
  intro l
  induction l with
  | nil => intro h; rw [rstripP]; rfl
  | cons c rest ih =>
    intro h
    have htail := noNNN_tail _ _ h
    rw [rstripP]
    cases hr : rstripP rest with
    | nil =>
      dsimp
      split
      · rfl
      · simp [noNNN_cons, head2NN, noNNN]
    | cons d t =>
      dsimp
      have ihr := ih htail
      rw [hr] at ihr
      rw [noNNN_cons, Bool.and_eq_true]
      refine ⟨?_, ihr⟩
      by_cases hcN : (c == '\n') = true
      · by_cases hH : head2NN (d :: t) = true
        · have hhr : head2NN rest = true :=
            head2NN_rstripP rest (by rw [hr]; exact hH)
          rw [noNNN_cons, Bool.and_eq_true] at h
          have h1 := h.1
          rw [hcN, hhr] at h1
          simp at h1
        · simp only [Bool.not_eq_true] at hH
          rw [hH]
          simp
      · simp only [Bool.not_eq_true] at hcN
        rw [hcN]
        simp

theorem noHH_dropWhile (p : Char → Bool) : ∀ l, noHH l = true →
    noHH (l.dropWhile p) = true := by
  intro l
  induction l with
  | nil => intro h; exact h
  | cons c rest ih =>
    intro h
    rw [List.dropWhile_cons]
    split
    · exact ih (noHH_tail _ _ h)
    · exact h

theorem noNNN_dropWhile (p : Char → Bool) : ∀ l, noNNN l = true →
    noNNN (l.dropWhile p) = true := by
  intro l
  induction l with
  | nil => intro h; exact h
  | cons c rest ih =>
    intro h
    rw [List.dropWhile_cons]
    split
    · exact ih (noNNN_tail _ _ h)
    · exact h

theorem dropWhile_eq_self_of_headNW (l : List Char) (h : headNW l) :
    List.dropWhile pyWS l = l := by
  cases l with
  | nil => rfl
  | cons c t =>
    rw [List.dropWhile_cons, if_neg]
    simp [h c (by simp)]

theorem rstripP_idem : ∀ l : List Char, rstripP (rstripP l) = rstripP l := by
  intro l
  induction l with
  | nil => rfl
  | cons c rest ih =>
    cases hr : rstripP rest with
    | nil =>
      by_cases hws : pyWS c
      · rw [show rstripP (c :: rest) = [] from by
          rw [rstripP, hr]; simp [hws], rstripP]
      · rw [show rstripP (c :: rest) = [c] from by
          rw [rstripP, hr]; simp [hws]]
        rw [show rstripP [c] = [c] from by
          rw [rstripP, rstripP]; simp [hws]]
    | cons d t =>
      have ihr := ih
      rw [hr] at ihr
      rw [show rstripP (c :: rest) = c :: d :: t from by rw [rstripP, hr]]
      rw [rstripP, ihr]

theorem pstrip_idem (l : List Char) : pstrip (pstrip l) = pstrip l := by
  show rstripP (lstripP (pstrip l)) = pstrip l
  rw [show lstripP (pstrip l) = pstrip l from
    dropWhile_eq_self_of_headNW _ (headNW_pstrip l)]
  show rstripP (rstripP (lstripP l)) = pstrip l
  rw [rstripP_idem]
  rfl

theorem mem_rstripP : ∀ (l : List Char) (d : Char), d ∈ rstripP l →
    d ∈ l := by
  intro l
  induction l with
  | nil => intro d h; rw [rstripP] at h; simp at h
  | cons c rest ih =>
    intro d h
    rw [rstripP] at h
    cases hr : rstripP rest with
    | nil =>
      rw [hr] at h
      dsimp at h
      split at h
      · simp at h
      · simp only [List.mem_singleton] at h; simp [h]
    | cons e t =>
      rw [hr] at h
      rcases List.mem_cons.mp h with rfl | h1
      · simp
      · have := ih d (by rw [hr]; exact h1)
        simp [this]

theorem mem_pstrip (l : List Char) (d : Char) (h : d ∈ pstrip l) : d ∈ l :=
  (List.dropWhile_sublist pyWS).subset (mem_rstripP _ d h)

/-! ### wsNorm normal form and idempotence -/

theorem mem_wsNorm (s : List Char) (d : Char) (h : d ∈ wsNorm s) :
    d ∈ s ∨ d = ' ' ∨ d = '\n' := by
  have h1 := mem_pstrip _ d h
  rcases mem_collapseNLGo _ 0 d h1 with h2 | h2
  · rcases mem_collapseHT _ d h2 with h3 | h3
    · exact Or.inl h3
    · exact Or.inr (Or.inl h3)
  · exact Or.inr (Or.inr h2)

theorem noTab_wsNorm (s : List Char) : '\t' ∉ wsNorm s := by
  intro h
  have h1 := mem_pstrip _ _ h
  rcases mem_collapseNLGo _ 0 _ h1 with h2 | h2
  · exact noTab_collapseHT s h2
  · exact absurd h2 (by decide)

theorem noHH_wsNorm (s : List Char) : noHH (wsNorm s) = true :=
  noHH_rstripP _ (noHH_dropWhile pyWS _
    (noHH_collapseNLGo _ 0 (noHH_collapseHT s)))

theorem noNNN_wsNorm (s : List Char) : noNNN (wsNorm s) = true :=
  noNNN_rstripP _ (noNNN_dropWhile pyWS _ (noNNN_collapseNLGo _ 0))

theorem wsNorm_idem (s : List Char) : wsNorm (wsNorm s) = wsNorm s := by
  show pstrip (collapseNL (collapseHT (wsNorm s))) = wsNorm s
  rw [collapseHT_eq_self _ (noTab_wsNorm s) (noHH_wsNorm s),
    collapseNL_eq_self _ (noNNN_wsNorm s)]
  exact pstrip_idem (collapseNL (collapseHT s))

/-! ### Claim C4 -/

/-- C4 counterexample: the normalizer is not idempotent on all strings.
On the three-character input `â`, `U+0080`, `U+0098` (the Latin-1 reading
of UTF-8 for `‘`) the first pass re-decodes it to `‘` (U+2018), and the
second pass then applies the table entry `‘ → '`, changing the string
again. -/
theorem C4_normalize_not_idempotent_cex :
    normalize_mojibake (normalize_mojibake ['â', '\u0080', '\u0098']) ≠
      normalize_mojibake ['â', '\u0080', '\u0098'] := by decide

/-- C4 amended: the normalizer is idempotent on every string that does
not contain the diagnostic characters `Ã` (U+00C3) or `â` (U+00E2), i.e.
whenever the heuristic re-decode step cannot fire.  (The counterexample
above shows the unconditional claim fails exactly through that step.) -/
theorem C4_normalize_idempotent_amended (x : List Char)
    (hA : 'Ã' ∉ x) (ha : 'â' ∉ x) :
    normalize_mojibake (normalize_mojibake x) = normalize_mojibake x := by
  by_cases hx : x = []
  · subst hx; rfl
  · have hr : applyRepl x = pyReplace ['‘'] ['\''] x := applyRepl_no_a x ha
    have har : 'â' ∉ pyReplace ['‘'] ['\''] x := by
      intro hm
      rcases mem_pyReplace _ _ _ _ hm with h1 | h1
      · exact ha h1
      · simp at h1
    have hAr : 'Ã' ∉ pyReplace ['‘'] ['\''] x := by
      intro hm
      rcases mem_pyReplace _ _ _ _ hm with h1 | h1
      · exact hA h1
      · simp at h1
    have h18r : '‘' ∉ pyReplace ['‘'] ['\''] x :=
      pyReplace_single_not_mem '‘' ['\''] x (by decide)
    have hred : redecodeStep (pyReplace ['‘'] ['\''] x) =
        pyReplace ['‘'] ['\''] x := by
      rw [redecodeStep, if_neg]
      rintro (h1 | h1)
      · exact hAr h1
      · exact har h1
    have hnx : normalize_mojibake x = wsNorm (pyReplace ['‘'] ['\''] x) := by
      rw [normalize_mojibake, if_neg hx, hr, hred]
    rw [hnx]
    by_cases hy : wsNorm (pyReplace ['‘'] ['\''] x) = []
    · rw [hy]; rfl
    · rw [normalize_mojibake, if_neg hy]
      have hay : 'â' ∉ wsNorm (pyReplace ['‘'] ['\''] x) := by
        intro hm
        rcases mem_wsNorm _ 'â' hm with h1 | h1 | h1
        · exact har h1
        · exact absurd h1 (by decide)
        · exact absurd h1 (by decide)
      have h18y : '‘' ∉ wsNorm (pyReplace ['‘'] ['\''] x) := by
        intro hm
        rcases mem_wsNorm _ '‘' hm with h1 | h1 | h1
        · exact h18r h1
        · exact absurd h1 (by decide)
        · exact absurd h1 (by decide)
      have hAy : 'Ã' ∉ wsNorm (pyReplace ['‘'] ['\''] x) := by
        intro hm
        rcases mem_wsNorm _ 'Ã' hm with h1 | h1 | h1
        · exact hAr h1
        · exact absurd h1 (by decide)
        · exact absurd h1 (by decide)
      have hry : applyRepl (wsNorm (pyReplace ['‘'] ['\''] x)) =
          wsNorm (pyReplace ['‘'] ['\''] x) := by
        rw [applyRepl_no_a _ hay]
        exact pyReplace_not_head_mem '‘' [] ['\''] _ h18y
      have hredy : redecodeStep (wsNorm (pyReplace ['‘'] ['\''] x)) =
          wsNorm (pyReplace ['‘'] ['\''] x) := by
        rw [redecodeStep, if_neg]
        rintro (h1 | h1)
        · exact hAy h1
        · exact hay h1
      rw [hry, hredy]
      exact wsNorm_idem (pyReplace ['‘'] ['\''] x)

theorem C4_normalize_idempotent_amended_witness :
    ('Ã' ∉ ("a \t b‘c\n\n\n\nd  ").data ∧
      'â' ∉ ("a \t b‘c\n\n\n\nd  ").data) ∧
    normalize_mojibake (normalize_mojibake ("a \t b‘c\n\n\n\nd  ").data) =
      normalize_mojibake ("a \t b‘c\n\n\n\nd  ").data :=
  ⟨⟨by decide, by decide⟩,
    C4_normalize_idempotent_amended ("a \t b‘c\n\n\n\nd  ").data
      (by decide) (by decide)⟩

end AudioBook

